import Mathlib

/-!
# SubVerter — verification of the adaptive chunked-translation pipeline

Shallow embedding of the SubVerter translation core
(`subverter_lib/translator.py`, `subverter_lib/srt_utils.py`,
`subverter_lib/lang_utils.py`, driver glue in `subverter_lib/pipeline.py`).

Modelling conventions:
* Strings are Lean `String`s; character-level work happens on `List Char`
  (`String.data`).  Python's default whitespace classes, `str.splitlines`
  terminators and `\d`/`ENTRY` matching are modelled over their ASCII
  repertoire, which is the repertoire all control-flow decisions of the
  source use.
* The external LLM (`LLMAdapter.generate`) is an oracle
  `gen : Prompt → GenResult`; a `Prompt` records exactly the inputs from
  which `prompt_utils.build_translation_prompt` / `build_summary_prompt`
  deterministically build the prompt string.  `GenResult` distinguishes a
  returned value (`None`/`str`) from a raised exception.
* The filesystem used for the Mismatch diagnostic dumps is an oracle
  `fs : String → String → Except String Unit` (path, content); a raised
  `OSError` is `.error`.
* Python exceptions escaping a function are modelled with `Except String`;
  printing/progress output is pure I/O and is not modelled.
-/

/-- Python's `str` whitespace test, restricted to the ASCII whitespace
characters (space, tab, newline, vertical tab, form feed, carriage return). -/
def pySpace (c : Char) : Bool :=
  c = ' ' || c = '\t' || c = '\n' || c = Char.ofNat 11 || c = Char.ofNat 12 || c = '\r'

/-- Python `str.strip()` on a character list. -/
def stripChars (l : List Char) : List Char :=
  ((l.dropWhile pySpace).reverse.dropWhile pySpace).reverse

/-- Python `str.lstrip()` on a character list. -/
def lstripChars (l : List Char) : List Char :=
  l.dropWhile pySpace

/-- Python `str.splitlines()` on a character list (`\n`, `\r`, `\r\n`
terminators; a trailing terminator does not produce an empty final line). -/
def splitlinesChars : List Char → List Char → List (List Char)
  | [], [] => []
  | [], acc => [acc.reverse]
  | '\r' :: '\n' :: rest, acc => acc.reverse :: splitlinesChars rest []
  | '\r' :: rest, acc => acc.reverse :: splitlinesChars rest []
  | '\n' :: rest, acc => acc.reverse :: splitlinesChars rest []
  | c :: rest, acc => splitlinesChars rest (c :: acc)

/-- `\d+:` — one or more digits directly followed by `:`
(continuation of `markerAt` after the first digit). -/
def digitsThenColon : List Char → Bool
  | c :: rest => if c = ':' then true else c.isDigit && digitsThenColon rest
  | [] => false

/-- Does the regex `ENTRY \d+:` (case-sensitive, as in
`re.split(r'(?=ENTRY \d+:)', text)` of `split_on_entry_labels`) match at the
head of the list? -/
def markerAt : List Char → Bool
  | c1 :: c2 :: c3 :: c4 :: c5 :: c6 :: c :: rest =>
      decide (c1 = 'E' ∧ c2 = 'N' ∧ c3 = 'T' ∧ c4 = 'R' ∧ c5 = 'Y' ∧ c6 = ' ')
        && c.isDigit && digitsThenColon rest
  | _ => false

/-- Prepend a character to the first part of a part list. -/
def consHead (c : Char) : List (List Char) → List (List Char)
  | [] => [[c]]
  | p :: ps => (c :: p) :: ps

/-- Raw split of `re.split(r'(?=ENTRY \d+:)', text)`: cut the text before
every position at which `ENTRY \d+:` matches (a match at position 0 yields a
leading empty part, exactly as Python's zero-width split does). -/
def splitCore : List Char → List (List Char)
  | [] => [[]]
  | c :: rest =>
      if markerAt (c :: rest) then [] :: consHead c (splitCore rest)
      else consHead c (splitCore rest)

/-- `split_on_entry_labels` (translator.py): split on `ENTRY \d+:` label
positions, strip each part, keep the non-empty parts.  Character-list level. -/
def splitParts (l : List Char) : List (List Char) :=
  ((splitCore l).map stripChars).filter (· ≠ [])

/-- `"\n\n".join(parts)` on character lists. -/
def joinDNL : List (List Char) → List Char
  | [] => []
  | [p] => p
  | p :: ps => p ++ '\n' :: '\n' :: joinDNL ps

/-- `"\n".join(lines)` on character lists. -/
def joinNL : List (List Char) → List Char
  | [] => []
  | [p] => p
  | p :: ps => p ++ '\n' :: joinNL ps

/-- Match of `ENTRY_LABEL_RE = re.compile(r"^ENTRY\s+\d+:\s*", re.IGNORECASE)`
at the start of a line; returns the rest of the line after the match, or
`none` when the regex does not match.  (`\s+` and `\d+` are maximal runs —
the character classes involved are disjoint, so greedy matching is exact.) -/
def matchLabelPrefix (l : List Char) : Option (List Char) :=
  match l with
  | c1 :: c2 :: c3 :: c4 :: c5 :: rest =>
    if c1.toUpper = 'E' ∧ c2.toUpper = 'N' ∧ c3.toUpper = 'T' ∧
       c4.toUpper = 'R' ∧ c5.toUpper = 'Y' then
      match rest with
      | c :: _ =>
        if pySpace c then
          let r1 := rest.dropWhile pySpace
          match r1 with
          | d :: _ =>
            if d.isDigit then
              match r1.dropWhile Char.isDigit with
              | ':' :: r2 => some (r2.dropWhile pySpace)
              | _ => none
            else none
          | [] => none
        else none
      | [] => none
    else none
  | _ => none

/-- One line of `strip_entry_labels`: `ENTRY_LABEL_RE.sub("", line).strip()`. -/
def stripLabelLine (l : List Char) : List Char :=
  stripChars (match matchLabelPrefix l with | some r => r | none => l)

/-- `strip_entry_labels` (translator.py) on character lists:
remove the `ENTRY X:` label from the start of each line, strip each line,
re-join with `\n` and strip the whole. -/
def stripEntryLabelsChars (l : List Char) : List Char :=
  stripChars (joinNL ((splitlinesChars l []).map stripLabelLine))

/-- `[l for l in resp.splitlines() if l.strip()]` (the original, unstripped
lines are kept). -/
def nonEmptyLines (l : List Char) : List (List Char) :=
  (splitlinesChars l []).filter (fun x => stripChars x ≠ [])

/-- `line.lstrip().upper().startswith("ENTRY")` (`Char.toUpper` agrees with
Python's `str.upper` on the ASCII letters compared against). -/
def startsWithENTRYUpper (l : List Char) : Bool :=
  ['E', 'N', 'T', 'R', 'Y'].isPrefixOf ((lstripChars l).map Char.toUpper)

/-- `text.replace("\r\n", "\n")` (left-to-right, non-overlapping). -/
def replaceCRLF : List Char → List Char
  | '\r' :: '\n' :: rest => '\n' :: replaceCRLF rest
  | c :: rest => c :: replaceCRLF rest
  | [] => []

/-- `text.split("\n\n")`: split on each non-overlapping occurrence of a
double newline, scanning left to right. -/
def splitOnDNLAux : List Char → List Char → List (List Char)
  | '\n' :: '\n' :: rest, acc => acc.reverse :: splitOnDNLAux rest []
  | c :: rest, acc => splitOnDNLAux rest (c :: acc)
  | [], acc => [acc.reverse]

/-- `split_on_double_newline` (translator.py): normalize `\r\n`, split on
blank lines, strip the parts, drop the empty ones. -/
def split_on_double_newline (l : List Char) : List (List Char) :=
  ((splitOnDNLAux (replaceCRLF l) []).map stripChars).filter (· ≠ [])

/-- Python `str.split()` (no separator): maximal runs of non-whitespace. -/
def pyWords : List Char → List Char → List (List Char)
  | [], [] => []
  | [], acc => [acc.reverse]
  | c :: rest, acc =>
      if pySpace c then
        if acc = [] then pyWords rest [] else acc.reverse :: pyWords rest []
      else pyWords rest (c :: acc)

/-- `normalize_text` (lang_utils.py) for string input:
`" ".join(text.split())`. -/
def normalize_text (s : String) : String :=
  ⟨List.intercalate [' '] (pyWords s.data [])⟩

/-- `SRTEntry` (srt_utils.py): one subtitle entry.  The Python `end` field is
called `stop` here (`end` is a Lean keyword). -/
structure SRTEntry where
  idx : Nat
  start : String
  stop : String
  text : String
deriving DecidableEq, Repr

/-- `join_entries_text` (srt_utils.py). -/
def join_entries_text (entries : List SRTEntry) : String :=
  ⟨joinDNL (entries.map (fun e => e.text.data))⟩

/-- `build_blocks` inner loop (srt_utils.py): `i` is the index of the next
entry, `start`/`curr_len` the open block.  `curr_len = 0` exactly at the
very start (every entry contributes `len + 2 > 0`). -/
def buildBlocksAux (char_limit : Int) : List SRTEntry → Nat → Nat → Int → List (Nat × Nat)
  | [], i, start, curr_len => if curr_len > 0 then [(start, i - 1)] else []
  | e :: rest, i, start, curr_len =>
      let entry_len : Int := (e.text.length : Int) + 2
      if curr_len = 0 then buildBlocksAux char_limit rest (i + 1) i entry_len
      else if curr_len + entry_len ≤ char_limit then
        buildBlocksAux char_limit rest (i + 1) start (curr_len + entry_len)
      else (start, i - 1) :: buildBlocksAux char_limit rest (i + 1) i entry_len

/-- `build_blocks` (srt_utils.py): greedy packing of consecutive entries
into blocks of total text length (with a 2-character separator per entry)
at most `char_limit`. -/
def build_blocks (entries : List SRTEntry) (char_limit : Int) : List (Nat × Nat) :=
  buildBlocksAux char_limit entries 0 0 0

/-- `context_slice` (srt_utils.py): up to `prev_n` texts before the block and
`next_n` after, each joined with `\n` and stripped. -/
def context_slice (entries : List SRTEntry) (s e : Nat) (prev_n next_n : Nat) :
    String × String :=
  let prev_lines := ((entries.take s).drop (s - prev_n)).map (fun x => x.text.data)
  let next_lines := ((entries.drop (e + 1)).take next_n).map (fun x => x.text.data)
  (⟨stripChars (joinNL prev_lines)⟩, ⟨stripChars (joinNL next_lines)⟩)

/-- The inputs from which `build_translation_prompt` / `build_summary_prompt`
(prompt_utils.py) deterministically build the prompt string; the generator
oracle is a function of these. -/
inductive Prompt where
  | translation (src tgt : String) (entries : List SRTEntry)
      (summary prev next : String)
  | summaryUpdate (src : String) (previousSummary recentText : String)
      (maxChars : Nat)
deriving DecidableEq

/-- Result of one `llm.generate(prompt)` call: a returned value
(`None` or a string), or a raised exception with its message. -/
inductive GenResult where
  | val : Option String → GenResult
  | exc : String → GenResult
deriving DecidableEq

/-- Python falsiness of an `Optional[str]` (`if not resp`). -/
def respFalsy : Option String → Bool
  | none => true
  | some s => s.data = []

/-- `AttemptResult` (translator.py). -/
structure AttemptResult where
  success : Bool
  text : Option String := none
  refusal_text : Option String := none
  mismatch_debug : Option (String × String) := none
deriving DecidableEq, Repr

/-- `validate_block_count` (translator.py): the number of `ENTRY`-label
parts of the translated text equals the number of original entries. -/
def validate_block_count (original : List SRTEntry) (translated : List Char) : Bool :=
  (splitParts translated).length = original.length

/-- Content of the `*_input_en.txt` Mismatch dump:
one `[idx] text\n` line per entry. -/
def mismatchInputDump (entries : List SRTEntry) : String :=
  String.join (entries.map (fun e => "[" ++ toString e.idx ++ "] " ++ e.text ++ "\n"))

/-- Content of the `*_output_nl.txt` Mismatch dump: the reply parts,
numbered from the first entry's index. -/
def mismatchOutputDump (start_idx : Nat) (parts : List (List Char)) : String :=
  String.join ((List.enumFrom start_idx parts).map
    (fun pi => "[" ++ toString pi.1 ++ "] " ++ String.mk pi.2 ++ "\n"))

/-- `attempt_block_translation` (translator.py).  Returns the
`AttemptResult` together with the list of diagnostic files written
(basenames); `.error` models a Python exception escaping the function
(the unprotected debug-file writes are the only raising statements). -/
def attempt_block_translation (gen : Prompt → GenResult)
    (fs : String → String → Except String Unit)
    (entries_subset : List SRTEntry) (src_lang tgt_lang : String)
    (summary_for_prompt prev_ctx next_ctx : String)
    (movie_folder : Option String) (cwd : String) :
    Except String (AttemptResult × List String) :=
  match gen (.translation src_lang tgt_lang entries_subset summary_for_prompt
      prev_ctx next_ctx) with
  | .exc e => .ok (⟨false, none, some ("LLM generate failed: " ++ e), none⟩, [])
  | .val resp =>
    if respFalsy resp then
      .ok (⟨false, none, some "Model returned no output.", none⟩, [])
    else
      let r := (resp.getD "").data
      let parts := splitCore r |>.map stripChars |>.filter (· ≠ [])
      if validate_block_count entries_subset (joinDNL parts) then
        .ok (⟨true, some ⟨joinDNL (parts.map stripEntryLabelsChars)⟩, none, none⟩, [])
      else
        match nonEmptyLines r with
        | [l] =>
          if startsWithENTRYUpper l = false then
            .ok (⟨false, none, some ⟨stripChars l⟩, none⟩, [])
          else
            attemptMismatch fs entries_subset parts movie_folder cwd
        | _ => attemptMismatch fs entries_subset parts movie_folder cwd
where
  /-- The Mismatch branch: write the two diagnostic dumps (unprotected —
  a write failure propagates) and return the Mismatch-shaped result. -/
  attemptMismatch (fs : String → String → Except String Unit)
      (entries_subset : List SRTEntry) (parts : List (List Char))
      (movie_folder : Option String) (cwd : String) :
      Except String (AttemptResult × List String) :=
    match entries_subset with
    | [] => .error "IndexError: entries_subset is empty"
    | e0 :: rest =>
      let last := (e0 :: rest).getLast (by simp)
      let folder := movie_folder.getD cwd
      let base := "subtitles_" ++ toString e0.idx ++ "-" ++ toString last.idx
      let in_name := base ++ "_input_en.txt"
      let out_name := base ++ "_output_nl.txt"
      do
        _ ← fs (folder ++ "/" ++ in_name) (mismatchInputDump (e0 :: rest))
        _ ← fs (folder ++ "/" ++ out_name) (mismatchOutputDump e0.idx parts)
        .ok (⟨false, none, none, some (in_name, out_name)⟩, [in_name, out_name])

/-- One entry of `translate_block_fallback_per_entry`'s loop: `none` models
`return None` (generator exception, empty output, or single-line refusal). -/
def fallbackEntry (gen : Prompt → GenResult) (src_lang tgt_lang : String)
    (summary_so_far : String) (e : SRTEntry) : Option (List Char) :=
  match gen (.translation src_lang tgt_lang [e] summary_so_far "" "") with
  | .exc _ => none
  | .val resp =>
    if respFalsy resp then none
    else
      let r := (resp.getD "").data
      match nonEmptyLines r with
      | [l] =>
        if startsWithENTRYUpper l = false then none
        else some (fallbackClean r)
      | _ => some (fallbackClean r)
where
  /-- `lines = split_on_double_newline(resp); translated_line = lines[0] if
  lines else resp.strip(); strip_entry_labels(translated_line)`. -/
  fallbackClean (r : List Char) : List Char :=
    let lines := split_on_double_newline r
    let translated_line := match lines with
      | l :: _ => l
      | [] => stripChars r
    stripEntryLabelsChars translated_line

/-- `translate_block_fallback_per_entry` (translator.py): translate each
entry individually; any failing entry makes the whole fallback return
`None`. -/
def translate_block_fallback_per_entry (gen : Prompt → GenResult)
    (src_lang tgt_lang : String) (entries : List SRTEntry)
    (summary_so_far : String) : Option String :=
  (go entries).map (fun ps => ⟨joinDNL ps⟩)
where
  go : List SRTEntry → Option (List (List Char))
    | [] => some []
    | e :: rest =>
      match fallbackEntry gen src_lang tgt_lang summary_so_far e with
      | none => none
      | some t => (go rest).map (t :: ·)

/-- Total text length of a segment: `sum(len(e.text) for e in seg_entries)`. -/
def segTextLen (seg : List SRTEntry) : Int :=
  (seg.map (fun e => (e.text.length : Int))).sum

/-- `progressive_refine` (translator.py).  Status/log output is omitted
(pure printing); `.error` models the `RuntimeError` raised when the
per-unit fallback fails, or a propagated debug-write exception. -/
def progressive_refine (gen : Prompt → GenResult)
    (fs : String → String → Except String Unit)
    (seg_entries : List SRTEntry) (src_lang tgt_lang : String)
    (summary_for_prompt prev_ctx next_ctx : String)
    (movie_folder : Option String) (cwd : String)
    (min_char_limit : Int) (current_limit : Int) :
    Except String (String × Int) :=
  match seg_entries with
  | [] => .error "IndexError: seg_entries is empty"
  | e0 :: rest =>
    let start_idx := e0.idx
    let end_idx := ((e0 :: rest).getLast (by simp)).idx
    match attempt_block_translation gen fs (e0 :: rest) src_lang tgt_lang
        summary_for_prompt prev_ctx next_ctx movie_folder cwd with
    | .error e => .error e
    | .ok (result, _) =>
      match result.success, result.text with
      | true, some t => .ok (t, current_limit)
      | _, _ =>
        if h : segTextLen (e0 :: rest) ≤ min_char_limit ∨ (e0 :: rest).length ≤ 1 then
          match translate_block_fallback_per_entry gen src_lang tgt_lang
              (e0 :: rest) summary_for_prompt with
          | none => .error ("Fallback failed for " ++ toString start_idx ++ "-"
              ++ toString end_idx)
          | some t => .ok (t, min_char_limit)
        else
          let mid := (e0 :: rest).length / 2
          let child_limit := max min_char_limit (current_limit / 2)
          do
            let (left_text, left_limit) ← progressive_refine gen fs
              ((e0 :: rest).take mid) src_lang tgt_lang summary_for_prompt
              prev_ctx next_ctx movie_folder cwd min_char_limit child_limit
            let (right_text, _right_limit) ← progressive_refine gen fs
              ((e0 :: rest).drop mid) src_lang tgt_lang summary_for_prompt
              prev_ctx next_ctx movie_folder cwd min_char_limit child_limit
            .ok (left_text ++ "\n\n" ++ right_text, left_limit)
termination_by seg_entries.length
decreasing_by
  · simp only [List.length_take, List.length_cons]
    simp only [List.length_cons, not_or, not_le] at h
    omega
  · simp only [List.length_drop, List.length_cons]
    simp only [List.length_cons, not_or, not_le] at h
    omega

/-- The effective chunk budget computed at the head of
`translate_entries_with_context`:
`min(char_limit, 7500) - summary_max_chars`, raised to `min_char_limit`
when smaller. -/
def effectiveCharLimit (char_limit : Int) (summary_max_chars : Nat)
    (min_char_limit : Int) : Int :=
  let e := min char_limit 7500 - (summary_max_chars : Int)
  if e < min_char_limit then min_char_limit else e

/-- The rolling-summary update applied when `llm.generate` returned
`new_summary` without raising:
`if new_summary: rolling_summary = new_summary.strip()[:summary_max_chars]`. -/
def updateRollingSummary (summary_max_chars : Nat) (rolling_summary : String)
    (new_summary : Option String) : String :=
  match new_summary with
  | none => rolling_summary
  | some t => if t.data = [] then rolling_summary
      else ⟨(stripChars t.data).take summary_max_chars⟩

/-- `recent_text = " ".join(normalize_text(e.text) for e in block_entries)`. -/
def recentText (block_entries : List SRTEntry) : String :=
  ⟨List.intercalate [' '] (block_entries.map (fun e => (normalize_text e.text).data))⟩

/-- The per-block loop of `translate_entries_with_context` (translator.py).
`rest = []` means the current block is the last one (`bi = len(blocks)`), in
which case no rolling-summary update happens.  `.ok none` models
`return None` (the summary-update `except` branch); `.error` models an
exception escaping the loop. -/
def translateLoop (gen : Prompt → GenResult)
    (fs : String → String → Except String Unit)
    (entries : List SRTEntry) (src_lang tgt_lang : String)
    (movie_folder : Option String) (cwd : String)
    (summary_max_chars : Nat) (min_char_limit effective_char_limit : Int) :
    List (Nat × Nat) → String → List String →
    Except String (Option (List String))
  | [], _, translations => .ok (some translations)
  | (s, e) :: restBlocks, rolling_summary, translations =>
    let block_entries := (entries.drop s).take (e + 1 - s)
    let ctx := context_slice entries s e 5 5
    match progressive_refine gen fs block_entries src_lang tgt_lang
        rolling_summary ctx.1 ctx.2 movie_folder cwd min_char_limit
        effective_char_limit with
    | .error err => .error err
    | .ok (text, _) =>
      let translations' := translations ++ [⟨stripChars text.data⟩]
      match restBlocks with
      | [] => .ok (some translations')
      | _ :: _ =>
        match gen (.summaryUpdate src_lang rolling_summary
            (recentText block_entries) summary_max_chars) with
        | .exc _ => .ok none
        | .val new_summary =>
          translateLoop gen fs entries src_lang tgt_lang movie_folder cwd
            summary_max_chars min_char_limit effective_char_limit
            restBlocks
            (updateRollingSummary summary_max_chars rolling_summary new_summary)
            translations'

/-- `translate_entries_with_context` (translator.py): compute the effective
budget, build the blocks, and run the per-block loop starting from the empty
rolling summary. -/
def translate_entries_with_context (gen : Prompt → GenResult)
    (fs : String → String → Except String Unit)
    (entries : List SRTEntry) (src_lang tgt_lang : String)
    (char_limit : Int) (summary_max_chars : Nat)
    (movie_folder : Option String) (cwd : String) (min_char_limit : Int) :
    Except String (Option (List String)) :=
  let eff := effectiveCharLimit char_limit summary_max_chars min_char_limit
  translateLoop gen fs entries src_lang tgt_lang movie_folder cwd
    summary_max_chars min_char_limit eff (build_blocks entries eff) "" []

/-- The translation step of `run_pipeline` (pipeline.py): the call to
`translate_entries_with_context` is wrapped in
`except Exception: ...; return` and followed by
`if not translations: ...; return` — an exception, a `None` result and an
empty result list all end the file's processing with no output written. -/
def pipeline_translation_step (gen : Prompt → GenResult)
    (fs : String → String → Except String Unit)
    (entries : List SRTEntry) (src_lang tgt_lang : String)
    (char_limit : Int) (summary_max_chars : Nat)
    (movie_folder : Option String) (cwd : String) (min_char_limit : Int) :
    Option (List String) :=
  match translate_entries_with_context gen fs entries src_lang tgt_lang
      char_limit summary_max_chars movie_folder cwd min_char_limit with
  | .error _ => none
  | .ok none => none
  | .ok (some translations) => if translations = [] then none else some translations

/-- Worst-case recursion depth of `progressive_refine`'s bisection tree:
mirrors `progressive_refine` branch for branch (0 at a success or at the
per-unit fallback, `1 + max` over the two half segments otherwise). -/
def refineDepth (gen : Prompt → GenResult)
    (fs : String → String → Except String Unit)
    (seg_entries : List SRTEntry) (src_lang tgt_lang : String)
    (summary_for_prompt prev_ctx next_ctx : String)
    (movie_folder : Option String) (cwd : String)
    (min_char_limit : Int) (current_limit : Int) : Nat :=
  match seg_entries with
  | [] => 0
  | e0 :: rest =>
    match attempt_block_translation gen fs (e0 :: rest) src_lang tgt_lang
        summary_for_prompt prev_ctx next_ctx movie_folder cwd with
    | .error _ => 0
    | .ok (result, _) =>
      match result.success, result.text with
      | true, some _ => 0
      | _, _ =>
        if h : segTextLen (e0 :: rest) ≤ min_char_limit ∨ (e0 :: rest).length ≤ 1 then 0
        else
          let mid := (e0 :: rest).length / 2
          let child_limit := max min_char_limit (current_limit / 2)
          1 + max
            (refineDepth gen fs ((e0 :: rest).take mid) src_lang tgt_lang
              summary_for_prompt prev_ctx next_ctx movie_folder cwd
              min_char_limit child_limit)
            (refineDepth gen fs ((e0 :: rest).drop mid) src_lang tgt_lang
              summary_for_prompt prev_ctx next_ctx movie_folder cwd
              min_char_limit child_limit)
termination_by seg_entries.length
decreasing_by
  · simp only [List.length_take, List.length_cons]
    simp only [List.length_cons, not_or, not_le] at h
    omega
  · simp only [List.length_drop, List.length_cons]
    simp only [List.length_cons, not_or, not_le] at h
    omega

/-- Modelled from the spec (§4.1 wording, for the refinement half of C7):
the number of further units the current chunk absorbs, given the running
length so far — units are accumulated while
`running_length + unit_length + separator_overhead <= budget`. -/
def specTake (budget : Int) : Int → List SRTEntry → Nat
  | _, [] => 0
  | running, e :: rest =>
      if running + ((e.text.length : Int) + 2) ≤ budget then
        1 + specTake budget (running + ((e.text.length : Int) + 2)) rest
      else 0

/-- Modelled from the spec (§4.1 wording): greedy forward packing — each
chunk starts with the next unpacked unit (a single unit longer than the
budget still becomes its own chunk) and absorbs the maximal run of
successors that keeps the running length within budget. -/
def build_chunks_spec (budget : Int) : List SRTEntry → Nat → List (Nat × Nat)
  | [], _ => []
  | e :: rest, i =>
      let k := specTake budget ((e.text.length : Int) + 2) rest
      (i, i + k) :: build_chunks_spec budget (rest.drop k) (i + k + 1)
termination_by l => l.length
decreasing_by
  simp only [List.length_drop, List.length_cons]
  omega

/-- A unit of text length 10, for the §8 Chunk-Builder boundary example. -/
def unit10 (i : Nat) : SRTEntry := ⟨i, "", "", ⟨List.replicate 10 'a'⟩⟩

/-- A single oversized unit of text length 100. -/
def unit100 : SRTEntry := ⟨1, "", "", ⟨List.replicate 100 'a'⟩⟩

/-- A filesystem oracle whose writes always succeed. -/
def fsOk : String → String → Except String Unit := fun _ _ => .ok ()

/-- Two 300-character units: with `char_limit = 500`, `summary_max_chars =
500`, `min_char_limit = 400` the effective budget is 400 and each unit forms
its own chunk. -/
def c5entries : List SRTEntry :=
  [⟨1, "", "", ⟨List.replicate 300 'a'⟩⟩, ⟨2, "", "", ⟨List.replicate 300 'b'⟩⟩]

/-- A generator answering every translation prompt with a well-formed
single-entry reply and **raising** on every summary-update prompt. -/
def c5genExc : Prompt → GenResult := fun p =>
  match p with
  | .translation _ _ _ _ _ _ => .val (some "ENTRY 1: hola")
  | .summaryUpdate _ _ _ _ => .exc "boom"

/-- A generator answering every translation prompt with a well-formed
single-entry reply and returning `None` on every summary-update prompt. -/
def c5genNone : Prompt → GenResult := fun p =>
  match p with
  | .translation _ _ _ _ _ _ => .val (some "ENTRY 1: hola")
  | .summaryUpdate _ _ _ _ => .val none

/-- The character sequence matched by one occurrence of `ENTRY \\d+:`
(digit run `ds`). -/
def markerStr (ds : List Char) : List Char :=
  'E' :: 'N' :: 'T' :: 'R' :: 'Y' :: ' ' :: (ds ++ [':'])

/-- The raw parts of the `ENTRY`-label split of `"\\n\\n".join ps`:
every part but the last carries the following separator. -/
def glue : List (List Char) → List (List Char)
  | [] => []
  | [p] => [p]
  | p :: ps => (p ++ '\n' :: '\n' :: []) :: glue ps

/-- Prepend a character list to the first part of a part list. -/
def prependHead (a : List Char) : List (List Char) → List (List Char)
  | [] => [a]
  | p :: ps => (a ++ p) :: ps

/-! ## Supporting lemmas -/

theorem specTake_le (b : Int) : ∀ (l : List SRTEntry) (r : Int), specTake b r l ≤ l.length := by
  intro l
  induction l with
  | nil => intro r; simp [specTake]
  | cons e rest ih =>
    intro r
    rw [specTake]
    split
    · have := ih (r + ((e.text.length : Int) + 2))
      simp only [List.length_cons]
      omega
    · simp

theorem buildBlocksAux_spec (b : Int) :
    ∀ (rest : List SRTEntry) (i start : Nat) (curr : Int), 0 < curr → 1 ≤ i →
    buildBlocksAux b rest i start curr =
      (start, i + specTake b curr rest - 1) ::
        build_chunks_spec b (rest.drop (specTake b curr rest)) (i + specTake b curr rest) := by
  intro rest
  induction rest with
  | nil =>
    intro i start curr hc hi
    simp only [buildBlocksAux, specTake, List.drop_nil]
    rw [build_chunks_spec]
    simp [hc]
  | cons e rest' ih =>
    intro i start curr hc hi
    rw [buildBlocksAux]
    have hne : ¬ (curr = 0) := by omega
    rw [if_neg hne]
    by_cases hfit : curr + ((e.text.length : Int) + 2) ≤ b
    · rw [if_pos hfit]
      rw [ih (i + 1) start (curr + ((e.text.length : Int) + 2)) (by omega) (by omega)]
      rw [specTake, if_pos hfit]
      have harith : i + (1 + specTake b (curr + ((e.text.length : Int) + 2)) rest') =
          i + 1 + specTake b (curr + ((e.text.length : Int) + 2)) rest' := by omega
      have hd : (e :: rest').drop (1 + specTake b (curr + ((e.text.length : Int) + 2)) rest') =
          rest'.drop (specTake b (curr + ((e.text.length : Int) + 2)) rest') := by
        rw [Nat.add_comm, List.drop_succ_cons]
      rw [hd, harith]
    · rw [if_neg hfit]
      rw [specTake, if_neg hfit]
      rw [ih (i + 1) i ((e.text.length : Int) + 2) (by positivity) (by omega)]
      simp only [Nat.add_zero, List.drop_zero]
      conv_rhs => rw [build_chunks_spec]
      have h1 : i + 1 + specTake b ((e.text.length : Int) + 2) rest' - 1 =
          i + specTake b ((e.text.length : Int) + 2) rest' := by omega
      have h2 : i + 1 + specTake b ((e.text.length : Int) + 2) rest' =
          i + specTake b ((e.text.length : Int) + 2) rest' + 1 := by omega
      rw [h1, h2]

theorem build_blocks_eq_spec (entries : List SRTEntry) (b : Int) :
    build_blocks entries b = build_chunks_spec b entries 0 := by
  cases entries with
  | nil => rw [build_chunks_spec]; rfl
  | cons e rest =>
    unfold build_blocks
    rw [buildBlocksAux]
    rw [if_pos rfl]
    rw [buildBlocksAux_spec b rest 1 0 ((e.text.length : Int) + 2) (by positivity) (by omega)]
    rw [build_chunks_spec]
    have h1 : 1 + specTake b ((e.text.length : Int) + 2) rest - 1 =
        0 + specTake b ((e.text.length : Int) + 2) rest := by omega
    have h2 : 1 + specTake b ((e.text.length : Int) + 2) rest =
        0 + specTake b ((e.text.length : Int) + 2) rest + 1 := by omega
    rw [h1, h2]

/-! ## Claim theorems -/

/-- C7: the chunk builder packs greedily — it equals the spec-worded greedy
packer (accumulate while `running + unit_len + separator ≤ budget`, close and
restart at the unit that would exceed); units of lengths `[10,10,10]` with
budget 25 give chunks `(0,1)` and `(2,2)`; a single oversized unit still
forms its own chunk; empty input yields no chunks. -/
theorem C7_chunk_builder_greedy :
    (∀ (entries : List SRTEntry) (budget : Int),
      build_blocks entries budget = build_chunks_spec budget entries 0) ∧
    build_blocks [unit10 1, unit10 2, unit10 3] 25 = [(0, 1), (2, 2)] ∧
    build_blocks [unit100] 25 = [(0, 0)] ∧
    (∀ budget : Int, build_blocks [] budget = []) := by
  refine ⟨build_blocks_eq_spec, by decide, by decide, ?_⟩
  intro budget
  simp [build_blocks, buildBlocksAux]

/-- C10 counterexample: with `char_limit = 500`, `summary_max_chars = 500`,
`min_char_limit = 400`, the budget actually used is 400, which is **not**
at most `min(char_limit, 7500) - summary_max_chars = 0` — the claimed upper
bound fails whenever the difference is raised to `min_char_limit`. -/
theorem C10_counterexample :
    effectiveCharLimit 500 500 400 = 400 ∧
    ¬ (effectiveCharLimit 500 500 400 ≤ min (500 : Int) 7500 - 500) := by
  decide

/-- C10 (amended): the budget used to build chunks is
`max(min_char_limit, min(char_limit, 7500) - summary_max_chars)`; it is
always at least `min_char_limit`, and equals
`min(char_limit, 7500) - summary_max_chars` exactly when that difference is
at least `min_char_limit`; `translate_entries_with_context` builds its
blocks with this budget, not with the caller-supplied `char_limit`. -/
theorem C10_effective_budget (char_limit : Int) (summary_max_chars : Nat)
    (min_char_limit : Int) :
    effectiveCharLimit char_limit summary_max_chars min_char_limit =
      max min_char_limit (min char_limit 7500 - (summary_max_chars : Int)) ∧
    min_char_limit ≤ effectiveCharLimit char_limit summary_max_chars min_char_limit ∧
    (min_char_limit ≤ min char_limit 7500 - (summary_max_chars : Int) →
      effectiveCharLimit char_limit summary_max_chars min_char_limit =
        min char_limit 7500 - (summary_max_chars : Int)) ∧
    (∀ gen fs entries src_lang tgt_lang movie_folder cwd,
      translate_entries_with_context gen fs entries src_lang tgt_lang
          char_limit summary_max_chars movie_folder cwd min_char_limit =
        translateLoop gen fs entries src_lang tgt_lang movie_folder cwd
          summary_max_chars min_char_limit
          (effectiveCharLimit char_limit summary_max_chars min_char_limit)
          (build_blocks entries
            (effectiveCharLimit char_limit summary_max_chars min_char_limit))
          "" []) := by
  refine ⟨?_, ?_, ?_, fun _ _ _ _ _ _ _ => rfl⟩ <;>
    · intros
      unfold effectiveCharLimit
      dsimp only
      split_ifs <;> omega

/-- Closed instance of `C10_effective_budget`: with the repo defaults
(`char_limit = 4500`, `summary_max_chars = 500`, `min_char_limit = 400`), the
difference 4000 is above the floor and is the budget used. -/
theorem C10_effective_budget_witness :
    effectiveCharLimit 4500 500 400 = min (4500 : Int) 7500 - 500 :=
  (C10_effective_budget 4500 500 400).2.2.1 (by decide)

/-- C6 counterexample: with a non-empty unit list and a `null` generator
reply, the chunk attempt returns a **Refusal**-shaped result carrying
"Model returned no output." and writes no diagnostic files — not a
Mismatch with zero segments and Mismatch side effects as claimed. -/
theorem C6_counterexample :
    attempt_block_translation (fun _ => .val none) (fun _ _ => .ok ())
        [⟨1, "", "", "hi"⟩] "en" "nl" "" "" "" none "." =
      .ok (⟨false, none, some "Model returned no output.", none⟩, []) ∧
    (⟨false, none, some "Model returned no output.", none⟩ : AttemptResult).mismatch_debug
      = none := by
  exact ⟨rfl, rfl⟩

/-- C6 (amended): a `null`/empty generator reply makes the chunk attempt
return a Refusal carrying "Model returned no output.", with no Mismatch
diagnostic files written; being a non-Success it is handled by the same
bisection/fallback recovery path. -/
theorem C6_empty_reply_refusal (gen : Prompt → GenResult)
    (fs : String → String → Except String Unit)
    (entries : List SRTEntry) (src_lang tgt_lang summary prev next : String)
    (movie_folder : Option String) (cwd : String)
    (h : gen (.translation src_lang tgt_lang entries summary prev next) = .val none ∨
         gen (.translation src_lang tgt_lang entries summary prev next) = .val (some "")) :
    attempt_block_translation gen fs entries src_lang tgt_lang summary prev next
        movie_folder cwd =
      .ok (⟨false, none, some "Model returned no output.", none⟩, []) := by
  unfold attempt_block_translation
  rcases h with h | h <;> rw [h] <;> rfl

/-- Closed instance of `C6_empty_reply_refusal` at a concrete unit list and
the always-`None` generator. -/
theorem C6_empty_reply_refusal_witness :
    attempt_block_translation (fun _ => .val none) (fun _ _ => .ok ())
        [⟨1, "", "", "hi"⟩, ⟨2, "", "", "ho"⟩] "en" "nl" "s" "p" "n" none "." =
      .ok (⟨false, none, some "Model returned no output.", none⟩, []) :=
  C6_empty_reply_refusal (fun _ => .val none) (fun _ _ => .ok ())
    [⟨1, "", "", "hi"⟩, ⟨2, "", "", "ho"⟩] "en" "nl" "s" "p" "n" none "."
    (Or.inl rfl)

/-- C4 counterexample: a two-unit chunk whose reply has three segments takes
the Mismatch branch; with a filesystem whose write fails, the chunk attempt
**raises** (`.error "disk full"`) instead of swallowing the failure. -/
theorem C4_counterexample :
    attempt_block_translation (fun _ => .val (some "a\n\nb\n\nc"))
        (fun _ _ => .error "disk full")
        [⟨1, "", "", "hi"⟩, ⟨2, "", "", "ho"⟩] "en" "nl" "" "" "" none "." =
      .error "disk full" := by
  rfl

/-- C4 (amended): the Mismatch diagnostic writes are *not* protected — if
writing the first artifact fails, the error propagates out of the chunk
attempt's Mismatch branch, and `progressive_refine` propagates any raising
chunk attempt rather than swallowing it. -/
theorem C4_mismatch_write_raises
    (fs : String → String → Except String Unit)
    (entries : List SRTEntry) (parts : List (List Char))
    (movie_folder : Option String) (cwd : String)
    (e0 : SRTEntry) (rest : List SRTEntry) (err : String)
    (hentries : entries = e0 :: rest)
    (hw : fs ((movie_folder.getD cwd) ++ "/" ++
            ("subtitles_" ++ toString e0.idx ++ "-"
              ++ toString ((e0 :: rest).getLast (by simp)).idx ++ "_input_en.txt"))
          (mismatchInputDump (e0 :: rest)) = .error err) :
    attempt_block_translation.attemptMismatch fs entries parts movie_folder cwd
      = .error err ∧
    (∀ gen src_lang tgt_lang summary prev next min_char_limit current_limit,
      attempt_block_translation gen fs (e0 :: rest) src_lang tgt_lang summary
          prev next movie_folder cwd = .error err →
      progressive_refine gen fs (e0 :: rest) src_lang tgt_lang summary prev next
          movie_folder cwd min_char_limit current_limit = .error err) := by
  constructor
  · subst hentries
    unfold attempt_block_translation.attemptMismatch
    dsimp only
    rw [hw]
    rfl
  · intro gen src_lang tgt_lang summary prev next mcl cl hatt
    rw [progressive_refine, hatt]

/-- Closed instance of `C4_mismatch_write_raises`: a failing write makes the
Mismatch branch raise. -/
theorem C4_mismatch_write_raises_witness :
    attempt_block_translation.attemptMismatch (fun _ _ => .error "disk full")
        [⟨1, "", "", "hi"⟩, ⟨2, "", "", "ho"⟩] [] none "." = .error "disk full" :=
  (C4_mismatch_write_raises (fun _ _ => .error "disk full")
    [⟨1, "", "", "hi"⟩, ⟨2, "", "", "ho"⟩] [] none "."
    ⟨1, "", "", "hi"⟩ [⟨2, "", "", "ho"⟩] "disk full" rfl rfl).1

/-- C1: on a failed chunk attempt, `progressive_refine` falls back to
per-unit mode exactly when the segment's total text length is at most the
floor or the segment has one unit; otherwise it bisects at `len / 2` into
two contiguous non-empty halves, refines both with the *same* summary and
prev/next context, and returns the left result concatenated before the
right result. -/
theorem C1_refiner_bisection (gen : Prompt → GenResult)
    (fs : String → String → Except String Unit)
    (e0 : SRTEntry) (rest : List SRTEntry)
    (src_lang tgt_lang summary prev next : String)
    (movie_folder : Option String) (cwd : String)
    (min_char_limit current_limit : Int)
    (result : AttemptResult) (writes : List String)
    (hatt : attempt_block_translation gen fs (e0 :: rest) src_lang tgt_lang
        summary prev next movie_folder cwd = .ok (result, writes))
    (hfail : result.success = false ∨ result.text = none) :
    ((segTextLen (e0 :: rest) ≤ min_char_limit ∨ (e0 :: rest).length ≤ 1) →
      progressive_refine gen fs (e0 :: rest) src_lang tgt_lang summary prev next
          movie_folder cwd min_char_limit current_limit =
        (match translate_block_fallback_per_entry gen src_lang tgt_lang
            (e0 :: rest) summary with
         | none => .error ("Fallback failed for " ++ toString e0.idx ++ "-"
             ++ toString (((e0 :: rest)).getLast (by simp)).idx)
         | some t => .ok (t, min_char_limit))) ∧
    (¬ (segTextLen (e0 :: rest) ≤ min_char_limit ∨ (e0 :: rest).length ≤ 1) →
      progressive_refine gen fs (e0 :: rest) src_lang tgt_lang summary prev next
          movie_folder cwd min_char_limit current_limit =
        (progressive_refine gen fs ((e0 :: rest).take ((e0 :: rest).length / 2))
            src_lang tgt_lang summary prev next movie_folder cwd min_char_limit
            (max min_char_limit (current_limit / 2))).bind
          (fun lt => (progressive_refine gen fs
              ((e0 :: rest).drop ((e0 :: rest).length / 2)) src_lang tgt_lang
              summary prev next movie_folder cwd min_char_limit
              (max min_char_limit (current_limit / 2))).bind
            (fun rt => .ok (lt.1 ++ "\n\n" ++ rt.1, lt.2)))) ∧
    (2 ≤ (e0 :: rest).length →
      (e0 :: rest).take ((e0 :: rest).length / 2) ≠ [] ∧
      (e0 :: rest).drop ((e0 :: rest).length / 2) ≠ [] ∧
      (e0 :: rest).take ((e0 :: rest).length / 2)
        ++ (e0 :: rest).drop ((e0 :: rest).length / 2) = e0 :: rest) := by
  refine ⟨?_, ?_, ?_⟩
  · intro hcond
    rw [progressive_refine, hatt]
    obtain ⟨succ, txt, rtxt, mdbg⟩ := result
    rcases hfail with hf | hf <;> simp only at hf <;> subst hf
    · cases txt <;> · dsimp only; rw [dif_pos hcond]
    · cases succ <;> · dsimp only; rw [dif_pos hcond]
  · intro hcond
    rw [progressive_refine, hatt]
    obtain ⟨succ, txt, rtxt, mdbg⟩ := result
    rcases hfail with hf | hf <;> simp only at hf <;> subst hf
    · cases txt <;> · dsimp only; rw [dif_neg hcond]; rfl
    · cases succ <;> · dsimp only; rw [dif_neg hcond]; rfl
  · intro hlen
    refine ⟨?_, ?_, List.take_append_drop _ _⟩
    · have : ((e0 :: rest).take ((e0 :: rest).length / 2)).length
          = (e0 :: rest).length / 2 := by
        rw [List.length_take]
        simp only [List.length_cons]
        omega
      intro hnil
      rw [hnil] at this
      simp only [List.length_nil, List.length_cons] at this hlen
      omega
    · have : ((e0 :: rest).drop ((e0 :: rest).length / 2)).length
          = (e0 :: rest).length - (e0 :: rest).length / 2 := by
        rw [List.length_drop]
      intro hnil
      rw [hnil] at this
      simp only [List.length_nil, List.length_cons] at this hlen
      omega

set_option maxRecDepth 20000 in
/-- Closed instance of `C1_refiner_bisection`: a two-unit segment below the
floor whose attempt mismatches goes to per-unit fallback, whose results are
concatenated in order. -/
theorem C1_refiner_bisection_witness :
    progressive_refine (fun _ => .val (some "a\n\nb\n\nc")) (fun _ _ => .ok ())
        [⟨1, "", "", "hi"⟩, ⟨2, "", "", "ho"⟩] "en" "nl" "" "" "" none "." 400 4000 =
      .ok ("a\n\na", 400) := by
  have h := (C1_refiner_bisection (fun _ => .val (some "a\n\nb\n\nc"))
    (fun _ _ => .ok ()) ⟨1, "", "", "hi"⟩ [⟨2, "", "", "ho"⟩] "en" "nl" "" "" ""
    none "." 400 4000
    ⟨false, none, none, some ("subtitles_1-2_input_en.txt", "subtitles_1-2_output_nl.txt")⟩
    ["subtitles_1-2_input_en.txt", "subtitles_1-2_output_nl.txt"]
    rfl (Or.inl rfl)).1 (by decide)
  rw [h]
  rfl

set_option maxRecDepth 40000 in
/-- C5 counterexample: two chunks; the generator translates every chunk but
**raises** on the rolling-summary update after chunk 1.  The run does not
continue to chunk 2 — `translate_entries_with_context` returns `None`
(`.ok none`), aborting the run with no result, where the claim says the
failure is non-fatal and translation continues. -/
theorem C5_counterexample :
    translate_entries_with_context c5genExc fsOk c5entries
      "en" "nl" 500 500 none "." 400 = .ok none := by
  show translateLoop c5genExc fsOk c5entries "en" "nl" none "." 500 400 400
    [(0, 0), (1, 1)] "" [] = .ok none
  have h1 : progressive_refine c5genExc fsOk ((c5entries.drop 0).take (0 + 1 - 0))
      "en" "nl" "" (context_slice c5entries 0 0 5 5).1
      (context_slice c5entries 0 0 5 5).2 none "." 400 400 =
      .ok ("hola", 400) := by
    have hb : (c5entries.drop 0).take (0 + 1 - 0)
        = [⟨1, "", "", ⟨List.replicate 300 'a'⟩⟩] := by
      simp [c5entries]
    rw [hb, progressive_refine]
    rfl
  rw [translateLoop]
  dsimp only
  rw [h1]
  rfl

/-- C5 (amended): for a rolling-summary update, a `None`/empty generator
*reply* leaves the summary unchanged and the loop continues with the next
chunk; but a generator *exception* makes `translate_entries_with_context`
return `None` for the whole run (the loop does not continue). -/
theorem C5_summary_update_failure (gen : Prompt → GenResult)
    (fs : String → String → Except String Unit)
    (entries : List SRTEntry) (src_lang tgt_lang : String)
    (movie_folder : Option String) (cwd : String)
    (summary_max_chars : Nat) (min_char_limit effective_char_limit : Int)
    (s e : Nat) (b2 : Nat × Nat) (restBlocks : List (Nat × Nat))
    (rolling_summary : String) (translations : List String)
    (text : String) (lim : Int)
    (hrefine : progressive_refine gen fs ((entries.drop s).take (e + 1 - s))
        src_lang tgt_lang rolling_summary
        (context_slice entries s e 5 5).1 (context_slice entries s e 5 5).2
        movie_folder cwd min_char_limit effective_char_limit = .ok (text, lim)) :
    ((gen (.summaryUpdate src_lang rolling_summary
          (recentText ((entries.drop s).take (e + 1 - s))) summary_max_chars)
        = .val none ∨
      gen (.summaryUpdate src_lang rolling_summary
          (recentText ((entries.drop s).take (e + 1 - s))) summary_max_chars)
        = .val (some "")) →
      translateLoop gen fs entries src_lang tgt_lang movie_folder cwd
          summary_max_chars min_char_limit effective_char_limit
          ((s, e) :: b2 :: restBlocks) rolling_summary translations =
        translateLoop gen fs entries src_lang tgt_lang movie_folder cwd
          summary_max_chars min_char_limit effective_char_limit
          (b2 :: restBlocks) rolling_summary
          (translations ++ [⟨stripChars text.data⟩])) ∧
    (∀ msg, gen (.summaryUpdate src_lang rolling_summary
          (recentText ((entries.drop s).take (e + 1 - s))) summary_max_chars)
        = .exc msg →
      translateLoop gen fs entries src_lang tgt_lang movie_folder cwd
          summary_max_chars min_char_limit effective_char_limit
          ((s, e) :: b2 :: restBlocks) rolling_summary translations = .ok none) := by
  constructor
  · intro hg
    rw [translateLoop, hrefine]
    rcases hg with hg | hg <;> rw [hg] <;> rfl
  · intro msg hg
    rw [translateLoop, hrefine, hg]

set_option maxRecDepth 40000 in
/-- Closed instance of `C5_summary_update_failure`: an empty summary reply
leaves the summary `""` unchanged and the loop moves on to block 2. -/
theorem C5_summary_update_failure_witness :
    translateLoop c5genNone fsOk c5entries
        "en" "nl" none "." 500 400 400 [(0, 0), (1, 1)] "" [] =
      translateLoop c5genNone fsOk c5entries
        "en" "nl" none "." 500 400 400 [(1, 1)] "" ["hola"] := by
  have hr : progressive_refine c5genNone fsOk ((c5entries.drop 0).take (0 + 1 - 0))
      "en" "nl" "" (context_slice c5entries 0 0 5 5).1
      (context_slice c5entries 0 0 5 5).2 none "." 400 400 =
      .ok ("hola", 400) := by
    have hb : (c5entries.drop 0).take (0 + 1 - 0)
        = [⟨1, "", "", ⟨List.replicate 300 'a'⟩⟩] := by
      simp [c5entries]
    rw [hb, progressive_refine]
    rfl
  exact (C5_summary_update_failure c5genNone fsOk c5entries "en" "nl" none "."
    500 400 400 0 0 (1, 1) [] "" [] "hola" 400 hr).1 (Or.inl rfl)

/-- C8: the stored rolling summary never exceeds `summary_max_chars` — the
update used by the loop truncates an over-long (stripped) reply to exactly
`summary_max_chars` characters and preserves the bound, which holds for the
initial empty summary `translate_entries_with_context` starts from. -/
theorem C8_summary_truncation (summary_max_chars : Nat) :
    (∀ (old : String) (ns : Option String), old.length ≤ summary_max_chars →
      (updateRollingSummary summary_max_chars old ns).length ≤ summary_max_chars) ∧
    (∀ (old t : String), summary_max_chars < (stripChars t.data).length →
      updateRollingSummary summary_max_chars old (some t) =
        ⟨(stripChars t.data).take summary_max_chars⟩ ∧
      (updateRollingSummary summary_max_chars old (some t)).length
        = summary_max_chars) ∧
    (("" : String).length ≤ summary_max_chars ∧
      ∀ gen fs entries src_lang tgt_lang char_limit movie_folder cwd min_char_limit,
      translate_entries_with_context gen fs entries src_lang tgt_lang char_limit
          summary_max_chars movie_folder cwd min_char_limit =
        translateLoop gen fs entries src_lang tgt_lang movie_folder cwd
          summary_max_chars min_char_limit
          (effectiveCharLimit char_limit summary_max_chars min_char_limit)
          (build_blocks entries
            (effectiveCharLimit char_limit summary_max_chars min_char_limit))
          "" []) := by
  refine ⟨?_, ?_, ?_, fun _ _ _ _ _ _ _ _ _ => rfl⟩
  · intro old ns hold
    match ns with
    | none => exact hold
    | some t =>
      show (if t.data = [] then old
        else (⟨(stripChars t.data).take summary_max_chars⟩ : String)).length ≤ _
      split
      · exact hold
      · show ((stripChars t.data).take summary_max_chars).length ≤ _
        rw [List.length_take]
        omega
  · intro old t hlong
    have hne : ¬ (t.data = []) := by
      intro hnil
      rw [hnil] at hlong
      simp [stripChars] at hlong
    have heq : updateRollingSummary summary_max_chars old (some t)
        = ⟨(stripChars t.data).take summary_max_chars⟩ := by
      show (if t.data = [] then old
        else (⟨(stripChars t.data).take summary_max_chars⟩ : String)) = _
      rw [if_neg hne]
    refine ⟨heq, ?_⟩
    rw [heq]
    show ((stripChars t.data).take summary_max_chars).length = _
    rw [List.length_take]
    omega
  · show (0 : Nat) ≤ summary_max_chars
    exact Nat.zero_le _

/-- Closed instance of `C8_summary_truncation`: a 10-character stripped reply
against a bound of 5 is stored as exactly its first 5 characters. -/
theorem C8_summary_truncation_witness :
    updateRollingSummary 5 "prev" (some "  abcdefghij  ") =
      ⟨(stripChars "  abcdefghij  ".data).take 5⟩ :=
  ((C8_summary_truncation 5).2.1 "prev" "  abcdefghij  " (by decide)).1

theorem refineDepth_le (gen : Prompt → GenResult)
    (fs : String → String → Except String Unit)
    (src_lang tgt_lang summary prev next : String)
    (movie_folder : Option String) (cwd : String) (min_char_limit : Int) :
    ∀ (n : Nat) (seg : List SRTEntry) (cl : Int), seg.length ≤ n →
      refineDepth gen fs seg src_lang tgt_lang summary prev next movie_folder
          cwd min_char_limit cl ≤ Nat.clog 2 seg.length := by
  intro n
  induction n with
  | zero =>
    intro seg cl h
    have hseg : seg = [] := List.length_eq_zero.mp (Nat.le_zero.mp h)
    subst hseg
    rw [refineDepth]
    exact Nat.zero_le _
  | succ n ih =>
    intro seg cl h
    match seg with
    | [] =>
      rw [refineDepth]
      exact Nat.zero_le _
    | e0 :: rest =>
      rw [refineDepth]
      split
      · exact Nat.zero_le _
      split
      · exact Nat.zero_le _
      split
      · exact Nat.zero_le _
      rename_i hcond
      have hlen2 : 2 ≤ (e0 :: rest).length := by
        simp only [not_or, not_le] at hcond
        omega
      have ht : ((e0 :: rest).take ((e0 :: rest).length / 2)).length
          = (e0 :: rest).length / 2 := by
        rw [List.length_take]
        omega
      have hd : ((e0 :: rest).drop ((e0 :: rest).length / 2)).length
          = (e0 :: rest).length - (e0 :: rest).length / 2 :=
        List.length_drop _ _
      have h1 := ih ((e0 :: rest).take ((e0 :: rest).length / 2))
        (max min_char_limit (cl / 2)) (by rw [ht]; omega)
      have h2 := ih ((e0 :: rest).drop ((e0 :: rest).length / 2))
        (max min_char_limit (cl / 2)) (by rw [hd]; omega)
      rw [ht] at h1
      rw [hd] at h2
      have hstep : Nat.clog 2 (e0 :: rest).length =
          Nat.clog 2 (((e0 :: rest).length + 1) / 2) + 1 := by
        have hc := Nat.clog_of_two_le (b := 2) (by norm_num) hlen2
        have : ((e0 :: rest).length + 2 - 1) / 2 = ((e0 :: rest).length + 1) / 2 := by
          omega
        rw [this] at hc
        exact hc
      have hm1 : Nat.clog 2 ((e0 :: rest).length / 2) ≤
          Nat.clog 2 (((e0 :: rest).length + 1) / 2) :=
        Nat.clog_mono_right 2 (by omega)
      have hm2 : Nat.clog 2 ((e0 :: rest).length - (e0 :: rest).length / 2) ≤
          Nat.clog 2 (((e0 :: rest).length + 1) / 2) :=
        Nat.clog_mono_right 2 (by omega)
      dsimp only
      omega

/-- C9: the refinement recursion terminates — for every segment of at least
two units, the two halves cut at `len / 2` are strictly smaller, non-empty,
and recompose the segment (so recursion never reaches a zero-length unit
list); and for *every* generator and filesystem oracle the depth of the
bisection tree is at most `⌈log₂ (number of units)⌉`. -/
theorem C9_refine_termination :
    (∀ (seg : List SRTEntry), 2 ≤ seg.length →
      (seg.take (seg.length / 2)).length < seg.length ∧
      (seg.drop (seg.length / 2)).length < seg.length ∧
      seg.take (seg.length / 2) ≠ [] ∧
      seg.drop (seg.length / 2) ≠ [] ∧
      seg.take (seg.length / 2) ++ seg.drop (seg.length / 2) = seg) ∧
    (∀ gen fs seg src_lang tgt_lang summary prev next movie_folder cwd
        min_char_limit current_limit,
      refineDepth gen fs seg src_lang tgt_lang summary prev next movie_folder
          cwd min_char_limit current_limit ≤ Nat.clog 2 seg.length) := by
  constructor
  · intro seg h2
    have ht : (seg.take (seg.length / 2)).length = seg.length / 2 := by
      rw [List.length_take]
      omega
    have hd : (seg.drop (seg.length / 2)).length = seg.length - seg.length / 2 :=
      List.length_drop _ _
    refine ⟨by omega, by omega, ?_, ?_, List.take_append_drop _ _⟩
    · intro hnil
      rw [hnil] at ht
      simp only [List.length_nil] at ht
      omega
    · intro hnil
      rw [hnil] at hd
      simp only [List.length_nil] at hd
      omega
  · intro gen fs seg src_lang tgt_lang summary prev next movie_folder cwd mcl cl
    exact refineDepth_le gen fs src_lang tgt_lang summary prev next movie_folder
      cwd mcl seg.length seg cl le_rfl

/-- Closed instance of `C9_refine_termination` on a two-unit segment. -/
theorem C9_refine_termination_witness :
    ([(⟨1, "", "", "a"⟩ : SRTEntry), ⟨2, "", "", "b"⟩].take
        ([(⟨1, "", "", "a"⟩ : SRTEntry), ⟨2, "", "", "b"⟩].length / 2)).length
      < [(⟨1, "", "", "a"⟩ : SRTEntry), ⟨2, "", "", "b"⟩].length ∧
    ([(⟨1, "", "", "a"⟩ : SRTEntry), ⟨2, "", "", "b"⟩].drop
        ([(⟨1, "", "", "a"⟩ : SRTEntry), ⟨2, "", "", "b"⟩].length / 2)).length
      < [(⟨1, "", "", "a"⟩ : SRTEntry), ⟨2, "", "", "b"⟩].length ∧
    [(⟨1, "", "", "a"⟩ : SRTEntry), ⟨2, "", "", "b"⟩].take
        ([(⟨1, "", "", "a"⟩ : SRTEntry), ⟨2, "", "", "b"⟩].length / 2) ≠ [] ∧
    [(⟨1, "", "", "a"⟩ : SRTEntry), ⟨2, "", "", "b"⟩].drop
        ([(⟨1, "", "", "a"⟩ : SRTEntry), ⟨2, "", "", "b"⟩].length / 2) ≠ [] ∧
    [(⟨1, "", "", "a"⟩ : SRTEntry), ⟨2, "", "", "b"⟩].take
        ([(⟨1, "", "", "a"⟩ : SRTEntry), ⟨2, "", "", "b"⟩].length / 2)
      ++ [(⟨1, "", "", "a"⟩ : SRTEntry), ⟨2, "", "", "b"⟩].drop
        ([(⟨1, "", "", "a"⟩ : SRTEntry), ⟨2, "", "", "b"⟩].length / 2)
      = [(⟨1, "", "", "a"⟩ : SRTEntry), ⟨2, "", "", "b"⟩] :=
  C9_refine_termination.1 [(⟨1, "", "", "a"⟩ : SRTEntry), ⟨2, "", "", "b"⟩] (by decide)

theorem attempt_gen_none (gen : Prompt → GenResult)
    (fs : String → String → Except String Unit)
    (entries : List SRTEntry) (src_lang tgt_lang summary prev next : String)
    (movie_folder : Option String) (cwd : String)
    (hgen : gen (.translation src_lang tgt_lang entries summary prev next)
      = .val none) :
    attempt_block_translation gen fs entries src_lang tgt_lang summary prev next
        movie_folder cwd =
      .ok (⟨false, none, some "Model returned no output.", none⟩, []) := by
  unfold attempt_block_translation
  rw [hgen]
  rfl

theorem fallback_gen_none (gen : Prompt → GenResult)
    (src_lang tgt_lang : String) (e0 : SRTEntry) (rest : List SRTEntry)
    (summary : String) (hgen : ∀ p, gen p = .val none) :
    translate_block_fallback_per_entry gen src_lang tgt_lang (e0 :: rest)
      summary = none := by
  have hfe : fallbackEntry gen src_lang tgt_lang summary e0 = none := by
    unfold fallbackEntry
    rw [hgen]
    rfl
  unfold translate_block_fallback_per_entry
  rw [translate_block_fallback_per_entry.go, hfe]
  rfl

theorem refine_gen_none_error (gen : Prompt → GenResult)
    (fs : String → String → Except String Unit)
    (src_lang tgt_lang summary prev next : String)
    (movie_folder : Option String) (cwd : String) (min_char_limit : Int)
    (hgen : ∀ p, gen p = .val none) :
    ∀ (n : Nat) (e0 : SRTEntry) (rest : List SRTEntry) (cl : Int),
      (e0 :: rest).length ≤ n →
    ∃ (a b : Nat), progressive_refine gen fs (e0 :: rest) src_lang tgt_lang
        summary prev next movie_folder cwd min_char_limit cl =
      .error ("Fallback failed for " ++ toString a ++ "-" ++ toString b) := by
  intro n
  induction n with
  | zero =>
    intro e0 rest cl h
    simp at h
  | succ n ih =>
    intro e0 rest cl h
    rw [progressive_refine]
    rw [attempt_gen_none gen fs (e0 :: rest) src_lang tgt_lang summary prev next
      movie_folder cwd (hgen _)]
    dsimp only
    by_cases hcond : segTextLen (e0 :: rest) ≤ min_char_limit ∨ (e0 :: rest).length ≤ 1
    · rw [dif_pos hcond]
      rw [fallback_gen_none gen src_lang tgt_lang e0 rest summary hgen]
      exact ⟨e0.idx, ((e0 :: rest).getLast (by simp)).idx, rfl⟩
    · rw [dif_neg hcond]
      have hlen2 : 1 ≤ rest.length := by
        simp only [List.length_cons, not_or, not_le] at hcond
        omega
      simp only [List.length_cons] at h
      obtain ⟨x, xs, hx⟩ : ∃ x xs,
          (e0 :: rest).take ((e0 :: rest).length / 2) = x :: xs := by
        match hm : (e0 :: rest).take ((e0 :: rest).length / 2) with
        | [] =>
          exfalso
          have hml := congrArg List.length hm
          simp only [List.length_take, List.length_nil, List.length_cons] at hml
          omega
        | x :: xs => exact ⟨x, xs, rfl⟩
      have hlen' : (x :: xs).length ≤ n := by
        have hml := congrArg List.length hx
        simp only [List.length_take, List.length_cons] at hml ⊢
        omega
      obtain ⟨a, b, hab⟩ := ih x xs (max min_char_limit (cl / 2)) hlen'
      refine ⟨a, b, ?_⟩
      rw [hx, hab]
      rfl

/-- C3: a failed per-unit fallback is fatal for the whole run —
(1) when `progressive_refine` reaches the fallback branch and the fallback
returns `None`, it raises an error naming the failing unit range;
(2) any error escaping `translate_entries_with_context` makes the driver's
translation step end with no result at all;
(3) for every non-empty entry list, a generator that fails every request
(always returns `None`) makes the whole run end in a `Fallback failed for
a-b` error naming a unit range — no partial result is returned. -/
theorem C3_fallback_failure_fatal :
    (∀ (gen : Prompt → GenResult) (fs : String → String → Except String Unit)
        (e0 : SRTEntry) (rest : List SRTEntry)
        (src_lang tgt_lang summary prev next : String)
        (movie_folder : Option String) (cwd : String)
        (min_char_limit current_limit : Int)
        (result : AttemptResult) (writes : List String),
      attempt_block_translation gen fs (e0 :: rest) src_lang tgt_lang summary
          prev next movie_folder cwd = .ok (result, writes) →
      (result.success = false ∨ result.text = none) →
      (segTextLen (e0 :: rest) ≤ min_char_limit ∨ (e0 :: rest).length ≤ 1) →
      translate_block_fallback_per_entry gen src_lang tgt_lang (e0 :: rest)
          summary = none →
      progressive_refine gen fs (e0 :: rest) src_lang tgt_lang summary prev
          next movie_folder cwd min_char_limit current_limit =
        .error ("Fallback failed for " ++ toString e0.idx ++ "-"
          ++ toString (((e0 :: rest)).getLast (by simp)).idx)) ∧
    (∀ gen fs entries src_lang tgt_lang char_limit summary_max_chars
        movie_folder cwd min_char_limit err,
      translate_entries_with_context gen fs entries src_lang tgt_lang
          char_limit summary_max_chars movie_folder cwd min_char_limit
        = .error err →
      pipeline_translation_step gen fs entries src_lang tgt_lang char_limit
          summary_max_chars movie_folder cwd min_char_limit = none) ∧
    (∀ (gen : Prompt → GenResult) (fs : String → String → Except String Unit)
        (x : SRTEntry) (xs : List SRTEntry)
        (src_lang tgt_lang : String) (char_limit : Int)
        (summary_max_chars : Nat) (movie_folder : Option String) (cwd : String)
        (min_char_limit : Int),
      (∀ p, gen p = .val none) →
      ∃ (a b : Nat), translate_entries_with_context gen fs (x :: xs) src_lang
          tgt_lang char_limit summary_max_chars movie_folder cwd min_char_limit =
        .error ("Fallback failed for " ++ toString a ++ "-" ++ toString b)) := by
  refine ⟨?_, ?_, ?_⟩
  · intro gen fs e0 rest src_lang tgt_lang summary prev next movie_folder cwd
      mcl cl result writes hatt hfail hcond hfb
    have h := (C1_refiner_bisection gen fs e0 rest src_lang tgt_lang summary
      prev next movie_folder cwd mcl cl result writes hatt hfail).1 hcond
    rw [h, hfb]
  · intro gen fs entries src_lang tgt_lang char_limit summary_max_chars
      movie_folder cwd min_char_limit err herr
    unfold pipeline_translation_step
    rw [herr]
  · intro gen fs x xs src_lang tgt_lang char_limit summary_max_chars
      movie_folder cwd min_char_limit hgen
    unfold translate_entries_with_context
    dsimp only
    rw [build_blocks_eq_spec, build_chunks_spec]
    rw [translateLoop]
    dsimp only
    have hbe : ((x :: xs).drop 0).take
        (0 + specTake (effectiveCharLimit char_limit summary_max_chars
          min_char_limit) ((x.text.length : Int) + 2) xs + 1 - 0)
        = x :: xs.take (specTake (effectiveCharLimit char_limit
            summary_max_chars min_char_limit) ((x.text.length : Int) + 2) xs) := by
      simp
    rw [hbe]
    obtain ⟨a, b, hab⟩ := refine_gen_none_error gen fs src_lang tgt_lang ""
      (context_slice (x :: xs) 0
        (0 + specTake (effectiveCharLimit char_limit summary_max_chars
          min_char_limit) ((x.text.length : Int) + 2) xs) 5 5).1
      (context_slice (x :: xs) 0
        (0 + specTake (effectiveCharLimit char_limit summary_max_chars
          min_char_limit) ((x.text.length : Int) + 2) xs) 5 5).2
      movie_folder cwd min_char_limit hgen
      (x :: xs.take (specTake (effectiveCharLimit char_limit summary_max_chars
        min_char_limit) ((x.text.length : Int) + 2) xs)).length
      x
      (xs.take (specTake (effectiveCharLimit char_limit summary_max_chars
        min_char_limit) ((x.text.length : Int) + 2) xs))
      (effectiveCharLimit char_limit summary_max_chars min_char_limit) le_rfl
    refine ⟨a, b, ?_⟩
    rw [hab]

/-- Closed instance of `C3_fallback_failure_fatal`: a single-unit chunk with
an always-`None` generator fails its fallback and raises a fatal error
naming the unit range. -/
theorem C3_fallback_failure_fatal_witness :
    progressive_refine (fun _ => .val none) fsOk [⟨1, "", "", "hi"⟩] "en" "nl"
        "" "" "" none "." 400 400 = .error "Fallback failed for 1-1" :=
  C3_fallback_failure_fatal.1 (fun _ => .val none) fsOk ⟨1, "", "", "hi"⟩ []
    "en" "nl" "" "" "" none "." 400 400
    ⟨false, none, some "Model returned no output.", none⟩ [] rfl (Or.inl rfl)
    (by decide) rfl

theorem digitsThenColon_iff (l : List Char) :
    digitsThenColon l = true ↔
      ∃ ds t, (∀ c ∈ ds, c.isDigit = true) ∧ l = ds ++ ':' :: t := by
  induction l with
  | nil =>
    constructor
    · intro h
      simp [digitsThenColon] at h
    · rintro ⟨ds, t, -, habs⟩
      cases ds <;> simp at habs
  | cons c rest ih =>
    rw [digitsThenColon]
    by_cases hc : c = ':'
    · subst hc
      constructor
      · intro _
        exact ⟨[], rest, by simp, rfl⟩
      · intro _
        simp
    · rw [if_neg hc, Bool.and_eq_true, ih]
      constructor
      · rintro ⟨hcd, ds, t, hdig, rfl⟩
        refine ⟨c :: ds, t, ?_, rfl⟩
        intro x hx
        rcases List.mem_cons.mp hx with hx | hx
        · subst hx; exact hcd
        · exact hdig x hx
      · rintro ⟨ds, t, hdig, heq⟩
        match ds, heq with
        | [], heq =>
          exfalso
          have : c = ':' := by
            have := congrArg (fun z => z.head?) heq
            simpa using this
          exact hc this
        | d :: ds', heq =>
          have hd : c = d := by
            have := congrArg (fun z => z.head?) heq
            simpa using this
          have hrest : rest = ds' ++ ':' :: t := by
            have := congrArg (fun z => z.tail) heq
            simpa using this
          subst hd
          exact ⟨hdig c (by simp), ds', t,
            fun x hx => hdig x (by simp [hx]), hrest⟩

theorem markerAt_iff (l : List Char) :
    markerAt l = true ↔
      ∃ ds t, ds ≠ [] ∧ (∀ c ∈ ds, c.isDigit = true) ∧ l = markerStr ds ++ t := by
  constructor
  · intro h
    match l, h with
    | c1 :: c2 :: c3 :: c4 :: c5 :: c6 :: c :: rest, h =>
      rw [markerAt, Bool.and_eq_true, Bool.and_eq_true, decide_eq_true_eq] at h
      obtain ⟨⟨⟨h1, h2, h3, h4, h5, h6⟩, hcd⟩, hdtc⟩ := h
      subst h1; subst h2; subst h3; subst h4; subst h5; subst h6
      obtain ⟨ds', t, hdig, hrest⟩ := (digitsThenColon_iff rest).mp hdtc
      refine ⟨c :: ds', t, by simp, ?_, ?_⟩
      · intro x hx
        rcases List.mem_cons.mp hx with hx | hx
        · subst hx; exact hcd
        · exact hdig x hx
      · rw [hrest]
        simp [markerStr]
  · rintro ⟨ds, t, hne, hdig, rfl⟩
    match ds, hne with
    | d :: ds', _ =>
      have heq : markerStr (d :: ds') ++ t
          = 'E' :: 'N' :: 'T' :: 'R' :: 'Y' :: ' ' :: d :: (ds' ++ ':' :: t) := by
        simp [markerStr]
      rw [heq, markerAt, Bool.and_eq_true, Bool.and_eq_true, decide_eq_true_eq]
      refine ⟨⟨by simp, hdig d (by simp)⟩, ?_⟩
      exact (digitsThenColon_iff _).mpr
        ⟨ds', t, fun x hx => hdig x (by simp [hx]), rfl⟩

theorem markerAt_head {l : List Char} (h : markerAt l = true) :
    ∃ l', l = 'E' :: l' := by
  obtain ⟨ds, t, -, -, rfl⟩ := (markerAt_iff l).mp h
  exact ⟨_, rfl⟩

theorem markerAt_ne_nil {l : List Char} (h : markerAt l = true) : l ≠ [] := by
  obtain ⟨l', rfl⟩ := markerAt_head h
  simp

theorem newline_not_mem_markerStr {ds : List Char}
    (hdig : ∀ c ∈ ds, c.isDigit = true) : ('\n' : Char) ∉ markerStr ds := by
  intro hmem
  simp only [markerStr, List.mem_cons, List.mem_append, List.mem_singleton] at hmem
  rcases hmem with h | h | h | h | h | h | h | h
  · exact absurd h (by decide)
  · exact absurd h (by decide)
  · exact absurd h (by decide)
  · exact absurd h (by decide)
  · exact absurd h (by decide)
  · exact absurd h (by decide)
  · exact absurd (hdig _ h) (by decide)
  · exact absurd h (by decide)

theorem markerAt_extend {t s : List Char} (h : markerAt t = true)
    (hp : t <+: s) : markerAt s = true := by
  obtain ⟨ds, t', hne, hdig, rfl⟩ := (markerAt_iff t).mp h
  obtain ⟨u, rfl⟩ := hp
  exact (markerAt_iff _).mpr ⟨ds, t' ++ u, hne, hdig, by simp⟩

theorem markerAt_append_newline (s b : List Char) :
    s ≠ [] → markerAt (s ++ '\n' :: b) = markerAt s := by
  intro hsne
  by_cases h : markerAt s = true
  · rw [h, markerAt_extend h ⟨'\n' :: b, rfl⟩]
  · have h2 : markerAt (s ++ '\n' :: b) = true → markerAt s = true := by
      intro hm
      obtain ⟨ds, t, hdne, hdig, heq⟩ := (markerAt_iff _).mp hm
      rcases List.append_eq_append_iff.mp heq with ⟨a', ha1, ha2⟩ | ⟨c', hc1, hc2⟩
      · match a', ha2 with
        | [], _ =>
          refine (markerAt_iff s).mpr ⟨ds, [], hdne, hdig, ?_⟩
          rw [ha1]
          simp
        | x :: a'', ha2 =>
          exfalso
          have hx : '\n' = x := by
            have := congrArg (fun z => z.head?) ha2
            simpa using this
          subst hx
          exact newline_not_mem_markerStr hdig (by rw [ha1]; simp)
      · exact (markerAt_iff s).mpr ⟨ds, c', hdne, hdig, hc1⟩
    cases hm : markerAt (s ++ '\n' :: b) with
    | false =>
      simp only [Bool.not_eq_true] at h
      rw [h]
    | true => exact absurd (h2 hm) h

theorem e_not_mem_markerStr_tail {ds : List Char}
    (hdig : ∀ c ∈ ds, c.isDigit = true) :
    ('E' : Char) ∉ ('N' :: 'T' :: 'R' :: 'Y' :: ' ' :: (ds ++ [':']) : List Char) := by
  intro hmem
  simp only [List.mem_cons, List.mem_append, List.mem_singleton] at hmem
  rcases hmem with h | h | h | h | h | h | h
  · exact absurd h (by decide)
  · exact absurd h (by decide)
  · exact absurd h (by decide)
  · exact absurd h (by decide)
  · exact absurd h (by decide)
  · exact absurd (hdig _ h) (by decide)
  · exact absurd h (by decide)

theorem consHead_flatten (c : Char) (P : List (List Char)) :
    (consHead c P).flatten = c :: P.flatten := by
  cases P <;> simp [consHead]

theorem splitCore_flatten (l : List Char) : (splitCore l).flatten = l := by
  induction l with
  | nil => simp [splitCore]
  | cons c rest ih =>
    rw [splitCore]
    split
    · simp [consHead_flatten, ih]
    · simp [consHead_flatten, ih]

theorem splitCore_struct (l : List Char) :
    ∃ p0 ps, splitCore l = p0 :: ps ∧
      (∀ t, t <:+ p0 → markerAt t = false) ∧
      (∀ p ∈ ps, markerAt p = true ∧
        ∀ t, t <:+ p → t ≠ p → markerAt t = false) := by
  induction l with
  | nil =>
    refine ⟨[], [], rfl, ?_, by simp⟩
    intro t ht
    obtain ⟨d, hd⟩ := ht
    have : t = [] := by
      rcases List.append_eq_nil.mp hd with ⟨-, h⟩
      exact h
    subst this
    rfl
  | cons c rest ih =>
    obtain ⟨q0, qs, hsc, hq0, hqs⟩ := ih
    have hflat : rest = q0 ++ qs.flatten := by
      have hj := splitCore_flatten rest
      rw [hsc] at hj
      simpa using hj.symm
    rw [splitCore, hsc]
    by_cases hm : markerAt (c :: rest) = true
    · rw [if_pos hm]
      refine ⟨[], (c :: q0) :: qs, rfl, ?_, ?_⟩
      · intro t ht
        obtain ⟨d, hd⟩ := ht
        have : t = [] := by
          rcases List.append_eq_nil.mp hd with ⟨-, h⟩
          exact h
        subst this
        rfl
      · intro p hp
        rcases List.mem_cons.mp hp with rfl | hp
        · constructor
          · by_contra hnc
            obtain ⟨ds, t, hdne, hdig, heq⟩ := (markerAt_iff _).mp hm
            have hsplit : (c :: q0) ++ qs.flatten = markerStr ds ++ t := by
              rw [← heq, hflat]
              simp
            rcases List.append_eq_append_iff.mp hsplit with
              ⟨a', ha1, ha2⟩ | ⟨c', hc1, hc2⟩
            · match a', ha2 with
              | [], _ =>
                refine hnc ((markerAt_iff _).mpr ⟨ds, [], hdne, hdig, ?_⟩)
                rw [ha1]
                simp
              | x :: a'', ha2 =>
                match qs, hqs, ha2 with
                | [], _, ha2 => simp at ha2
                | p1 :: qs', hqs, ha2 =>
                  have hp1 := (hqs p1 (by simp)).1
                  obtain ⟨p1', hp1'⟩ := markerAt_head hp1
                  have hx : x = 'E' := by
                    have h0 := congrArg (fun z => z.head?) ha2
                    rw [hp1'] at h0
                    simpa using h0.symm
                  subst hx
                  have htl : ('N' :: 'T' :: 'R' :: 'Y' :: ' ' :: (ds ++ [':']) : List Char)
                      = q0 ++ 'E' :: a'' := by
                    have h1 := congrArg (fun z => z.tail) ha1
                    simpa [markerStr] using h1
                  exact e_not_mem_markerStr_tail hdig (by rw [htl]; simp)
            · exact hnc ((markerAt_iff _).mpr ⟨ds, c', hdne, hdig, hc1⟩)
          · intro t ht htne
            rcases List.suffix_cons_iff.mp ht with rfl | ht
            · exact absurd rfl htne
            · exact hq0 t ht
        · exact hqs p hp
    · rw [if_neg hm]
      refine ⟨c :: q0, qs, rfl, ?_, hqs⟩
      intro t ht
      rcases List.suffix_cons_iff.mp ht with rfl | ht
      · cases hmc : markerAt (c :: q0) with
        | false => rfl
        | true =>
          exact absurd (markerAt_extend hmc
            ⟨qs.flatten, by rw [hflat]; simp⟩) hm
      · exact hq0 t ht

theorem dropWhile_dropWhile (p : Char → Bool) (l : List Char) :
    (l.dropWhile p).dropWhile p = l.dropWhile p := by
  induction l with
  | nil => rfl
  | cons c t ih =>
    rw [List.dropWhile_cons]
    by_cases hc : p c = true
    · rw [if_pos hc]
      exact ih
    · rw [if_neg hc, List.dropWhile_cons, if_neg hc]

theorem stripChars_decomp (l : List Char) :
    ∃ w1 w2, l = w1 ++ (stripChars l ++ w2) ∧
      (∀ c ∈ w1, pySpace c = true) ∧ (∀ c ∈ w2, pySpace c = true) := by
  refine ⟨l.takeWhile pySpace,
    ((l.dropWhile pySpace).reverse.takeWhile pySpace).reverse, ?_, ?_, ?_⟩
  · conv_lhs => rw [← List.takeWhile_append_dropWhile pySpace l]
    congr 1
    conv_lhs => rw [← List.reverse_reverse (l.dropWhile pySpace)]
    conv_lhs => rw [← List.takeWhile_append_dropWhile pySpace
      (l.dropWhile pySpace).reverse]
    rw [List.reverse_append]
    rfl
  · intro c hc
    exact List.mem_takeWhile_imp hc
  · intro c hc
    rw [List.mem_reverse] at hc
    exact List.mem_takeWhile_imp hc

theorem markerFree_strip {l : List Char}
    (h : ∀ t, t <:+ l → markerAt t = false) :
    ∀ t, t <:+ stripChars l → markerAt t = false := by
  intro t ht
  obtain ⟨w1, w2, hdec, -, hw2⟩ := stripChars_decomp l
  obtain ⟨d, hd⟩ := ht
  cases hmt : markerAt t with
  | false => rfl
  | true =>
    exfalso
    have hsuf : (t ++ w2) <:+ l := ⟨w1 ++ d, by rw [hdec, ← hd]; simp⟩
    have hfalse := h (t ++ w2) hsuf
    have htrue := markerAt_extend hmt (⟨w2, rfl⟩ : t <+: t ++ w2)
    rw [htrue] at hfalse
    exact Bool.true_eq_false.mp hfalse

theorem dropWhile_eq_self_of_stripped {l : List Char}
    (h : stripChars l = l) : l.dropWhile pySpace = l := by
  have hsuf : l.dropWhile pySpace <:+ l := List.dropWhile_suffix pySpace
  refine hsuf.eq_of_length ?_
  have h1 : (stripChars l).length ≤ (l.dropWhile pySpace).length := by
    unfold stripChars
    rw [List.length_reverse]
    calc ((l.dropWhile pySpace).reverse.dropWhile pySpace).length
        ≤ (l.dropWhile pySpace).reverse.length :=
          (List.dropWhile_suffix pySpace).length_le
      _ = (l.dropWhile pySpace).length := List.length_reverse _
  have h2 : (l.dropWhile pySpace).length ≤ l.length := hsuf.length_le
  rw [h] at h1
  omega

theorem reverse_dropWhile_eq_self_of_stripped {l : List Char}
    (h : stripChars l = l) : l.reverse.dropWhile pySpace = l.reverse := by
  have h1 := dropWhile_eq_self_of_stripped h
  have h2 : stripChars l = (l.reverse.dropWhile pySpace).reverse := by
    unfold stripChars
    rw [h1]
  rw [h] at h2
  have h3 := congrArg List.reverse h2
  rw [List.reverse_reverse] at h3
  exact h3.symm

theorem strip_append_ws {l w : List Char} (hst : stripChars l = l)
    (hne : l ≠ []) (hw : ∀ c ∈ w, pySpace c = true) :
    stripChars (l ++ w) = l := by
  have h1 := dropWhile_eq_self_of_stripped hst
  have h2 := reverse_dropWhile_eq_self_of_stripped hst
  unfold stripChars
  have step1 : (l ++ w).dropWhile pySpace = l ++ w := by
    rw [List.dropWhile_append, h1]
    rw [if_neg (by simpa [List.isEmpty_iff] using hne)]
  rw [step1, List.reverse_append]
  have hwrev : w.reverse.dropWhile pySpace = [] := by
    rw [List.dropWhile_eq_nil_iff]
    intro x hx
    exact hw x (List.mem_reverse.mp hx)
  rw [List.dropWhile_append, hwrev]
  rw [if_pos (by rfl)]
  rw [h2, List.reverse_reverse]

theorem stripChars_idem (l : List Char) :
    stripChars (stripChars l) = stripChars l := by
  have hd1 : (stripChars l).dropWhile pySpace = stripChars l := by
    cases hs : stripChars l with
    | nil => rfl
    | cons c t =>
      have hsub : stripChars l <+: l.dropWhile pySpace := by
        refine ⟨((l.dropWhile pySpace).reverse.takeWhile pySpace).reverse, ?_⟩
        conv_rhs => rw [← List.reverse_reverse (l.dropWhile pySpace)]
        conv_rhs => rw [← List.takeWhile_append_dropWhile pySpace
          (l.dropWhile pySpace).reverse]
        rw [List.reverse_append]
        rfl
      obtain ⟨u, hu⟩ := hsub
      have hform : l.dropWhile pySpace = c :: (t ++ u) := by
        rw [← hu, hs]
        rfl
      have hkey := dropWhile_dropWhile pySpace l
      rw [hform, List.dropWhile_cons] at hkey
      by_cases hc : pySpace c = true
      · rw [if_pos hc] at hkey
        have hlen := congrArg List.length hkey
        have hle := (List.dropWhile_suffix (l := t ++ u) pySpace).length_le
        simp only [List.length_cons] at hlen
        omega
      · rw [List.dropWhile_cons, if_neg hc]
  have hd2 : (stripChars l).reverse.dropWhile pySpace = (stripChars l).reverse := by
    unfold stripChars
    rw [List.reverse_reverse]
    exact dropWhile_dropWhile pySpace _
  show (((stripChars l).dropWhile pySpace).reverse.dropWhile pySpace).reverse
    = stripChars l
  rw [hd1, hd2, List.reverse_reverse]

theorem stripped_decomp_of_head {l : List Char}
    (h : l.dropWhile pySpace = l) :
    ∃ w, l = stripChars l ++ w ∧ ∀ c ∈ w, pySpace c = true := by
  refine ⟨(l.reverse.takeWhile pySpace).reverse, ?_, ?_⟩
  · have hs : stripChars l = (l.reverse.dropWhile pySpace).reverse := by
      unfold stripChars
      rw [h]
    rw [hs]
    conv_lhs => rw [← List.reverse_reverse l]
    conv_lhs => rw [← List.takeWhile_append_dropWhile pySpace l.reverse]
    rw [List.reverse_append]
  · intro c hc
    exact List.mem_takeWhile_imp (List.mem_reverse.mp hc)

theorem append_singleton_inj {a b : List Char} {x y : Char}
    (h : a ++ [x] = b ++ [y]) : x = y := by
  have := congrArg (fun z => z.reverse.head?) h
  simpa using this

theorem markerStr_concat (ds : List Char) :
    markerStr ds = ('E' :: 'N' :: 'T' :: 'R' :: 'Y' :: ' ' :: ds) ++ [':'] := by
  simp [markerStr]

theorem strip_marker_part {p : List Char} (hm : markerAt p = true)
    (hint : ∀ t, t <:+ p → t ≠ p → markerAt t = false) :
    markerAt (stripChars p) = true ∧ stripChars p ≠ [] ∧
      stripChars p <+: p ∧
      (∀ t, t <:+ stripChars p → t ≠ stripChars p → markerAt t = false) := by
  obtain ⟨p', hp'⟩ := markerAt_head hm
  have hdw : p.dropWhile pySpace = p := by
    rw [hp', List.dropWhile_cons, if_neg (by decide)]
  obtain ⟨w, hdecomp, hwws⟩ := stripped_decomp_of_head hdw
  have hMstrip : markerAt (stripChars p) = true := by
    obtain ⟨ds, t, hdne, hdig, heqm⟩ := (markerAt_iff p).mp hm
    have hkey : stripChars p ++ w = markerStr ds ++ t := hdecomp.symm.trans heqm
    rcases List.append_eq_append_iff.mp hkey with ⟨a', ha1, ha2⟩ | ⟨c', hc1, hc2⟩
    · rcases List.eq_nil_or_concat a' with rfl | ⟨m'', x, rfl⟩
      · refine (markerAt_iff _).mpr ⟨ds, [], hdne, hdig, ?_⟩
        rw [List.append_nil, ha1, List.append_nil]
      · exfalso
        have hx : x = ':' := by
          have h1 : (stripChars p ++ m'') ++ [x]
              = ('E' :: 'N' :: 'T' :: 'R' :: 'Y' :: ' ' :: ds) ++ [':'] := by
            rw [List.append_assoc, ← List.concat_eq_append, ← ha1,
              markerStr_concat]
          exact append_singleton_inj h1
        subst hx
        have hmem : (':' : Char) ∈ w := by
          rw [ha2]
          simp [List.concat_eq_append]
        exact absurd (hwws _ hmem) (by decide)
    · exact (markerAt_iff _).mpr ⟨ds, c', hdne, hdig, hc1⟩
  refine ⟨hMstrip, markerAt_ne_nil hMstrip, ⟨w, hdecomp.symm⟩, ?_⟩
  intro t ht htne
  obtain ⟨d, hd⟩ := ht
  have hdne' : d ≠ [] := by
    intro hnil
    subst hnil
    simp only [List.nil_append] at hd
    exact htne hd
  have hsuf : (t ++ w) <:+ p := ⟨d, by rw [hdecomp, ← hd]; simp⟩
  have hneq : t ++ w ≠ p := by
    intro heq
    have hlen1 := congrArg List.length heq
    have hlen2 := congrArg List.length hdecomp
    have hlen3 := congrArg List.length hd
    simp only [List.length_append] at hlen1 hlen2 hlen3
    have : d.length = 0 := by omega
    exact hdne' (List.length_eq_zero.mp this)
  have hfalse := hint (t ++ w) hsuf hneq
  cases hmt : markerAt t with
  | false => rfl
  | true =>
    exfalso
    have htrue := markerAt_extend hmt (⟨w, rfl⟩ : t <+: t ++ w)
    rw [htrue] at hfalse
    exact Bool.true_eq_false.mp hfalse

theorem markerAt_newline_cons (x : List Char) : markerAt ('\n' :: x) = false := by
  cases hm : markerAt ('\n' :: x) with
  | false => rfl
  | true =>
    obtain ⟨l', hl'⟩ := markerAt_head hm
    have : '\n' = 'E' := by
      have := congrArg (fun z => z.head?) hl'
      simpa using this
    exact absurd this (by decide)

theorem consHead_prependHead (c : Char) (a : List Char)
    (ps : List (List Char)) :
    consHead c (prependHead a ps) = prependHead (c :: a) ps := by
  cases ps <;> simp [consHead, prependHead]

theorem consHead_eq_prependHead (c : Char) (ps : List (List Char)) :
    consHead c ps = prependHead [c] ps := by
  cases ps <;> simp [consHead, prependHead]

theorem suffix_proper_of_cons {t : List Char} {c : Char} {y : List Char}
    (ht : t <:+ y) : t <:+ c :: y ∧ t ≠ c :: y := by
  constructor
  · exact ht.trans (List.suffix_cons c y)
  · intro heq
    have h1 := ht.length_le
    have h2 := congrArg List.length heq
    simp only [List.length_cons] at h2
    omega

theorem splitCore_no_internal {y : List Char} (hy : y ≠ [])
    (hint : ∀ t, t <:+ y → t ≠ y → markerAt t = false) :
    splitCore y = (if markerAt y = true then [[]] else []) ++ [y] := by
  induction y with
  | nil => exact absurd rfl hy
  | cons c y' ih =>
    cases hy' : y' with
    | nil =>
      subst hy'
      have hone : markerAt [c] = false := rfl
      rw [splitCore, hone]
      simp [splitCore, consHead]
    | cons d y'' =>
      have hy'ne : y' ≠ [] := by rw [hy']; simp
      rw [← hy']
      have hmark' : markerAt y' = false := by
        obtain ⟨hs, hne⟩ := suffix_proper_of_cons (c := c) (List.suffix_refl y')
        exact hint y' hs hne
      have hint' : ∀ t, t <:+ y' → t ≠ y' → markerAt t = false := by
        intro t hts htne
        obtain ⟨hs, hne⟩ := suffix_proper_of_cons (c := c) hts
        exact hint t hs hne
      rw [splitCore, ih hy'ne hint', hmark']
      by_cases hm : markerAt (c :: y') = true
      · rw [if_pos hm, if_pos hm]
        simp [consHead]
      · rw [if_neg hm, if_neg hm]
        simp [consHead]

theorem prependHead_prependHead (a b : List Char) (ps : List (List Char)) :
    prependHead a (prependHead b ps) = prependHead (a ++ b) ps := by
  cases ps <;> simp [prependHead]

theorem splitCore_part_append {y : List Char} (b : List Char) (hy : y ≠ [])
    (hint : ∀ t, t <:+ y → t ≠ y → markerAt t = false) :
    splitCore (y ++ '\n' :: b) =
      (if markerAt y = true then [[]] else [])
        ++ prependHead (y ++ ['\n']) (splitCore b) := by
  induction y with
  | nil => exact absurd rfl hy
  | cons c y' ih =>
    have hspan : markerAt ((c :: y') ++ '\n' :: b) = markerAt (c :: y') :=
      markerAt_append_newline _ _ (by simp)
    cases hy'nil : y' with
    | nil =>
      subst hy'nil
      have hone : markerAt [c] = false := rfl
      rw [show ([c] ++ '\n' :: b) = c :: '\n' :: b by rfl]
      rw [splitCore]
      rw [show markerAt (c :: '\n' :: b) = false by
        have := hspan
        rw [hone] at this
        simpa using this]
      simp only [Bool.false_eq_true, if_false, hone]
      rw [splitCore, markerAt_newline_cons]
      simp only [Bool.false_eq_true, if_false]
      rw [consHead_eq_prependHead, consHead_eq_prependHead,
        prependHead_prependHead]
      simp
    | cons d y'' =>
      have hy'ne : y' ≠ [] := by rw [hy'nil]; simp
      rw [← hy'nil]
      have hmark' : markerAt y' = false := by
        obtain ⟨hs, hne⟩ := suffix_proper_of_cons (c := c) (List.suffix_refl y')
        exact hint y' hs hne
      have hint' : ∀ t, t <:+ y' → t ≠ y' → markerAt t = false := by
        intro t hts htne
        obtain ⟨hs, hne⟩ := suffix_proper_of_cons (c := c) hts
        exact hint t hs hne
      have hstep : (c :: y') ++ '\n' :: b = c :: (y' ++ '\n' :: b) := rfl
      rw [hstep, splitCore]
      rw [show markerAt (c :: (y' ++ '\n' :: b)) = markerAt (c :: y') from hspan]
      rw [ih hy'ne hint', hmark']
      simp only [Bool.false_eq_true, if_false, List.nil_append]
      rw [consHead_prependHead]
      by_cases hm : markerAt (c :: y') = true
      · rw [if_pos hm, if_pos hm]
        rfl
      · rw [if_neg hm, if_neg hm]
        rfl

theorem splitCore_joinDNL_allM : ∀ (ps : List (List Char)), ps ≠ [] →
    (∀ p ∈ ps, markerAt p = true ∧
      (∀ t, t <:+ p → t ≠ p → markerAt t = false)) →
    splitCore (joinDNL ps) = [] :: glue ps := by
  intro ps
  induction ps with
  | nil => intro h; exact absurd rfl h
  | cons y ps ih =>
    intro _ hall
    obtain ⟨hmy, hinty⟩ := hall y (by simp)
    have hyne : y ≠ [] := markerAt_ne_nil hmy
    cases hps : ps with
    | nil =>
      subst hps
      show splitCore (joinDNL [y]) = [] :: glue [y]
      rw [show joinDNL [y] = y from rfl, splitCore_no_internal hyne hinty, hmy]
      rfl
    | cons p2 rest =>
      rw [← hps]
      have hpsne : ps ≠ [] := by rw [hps]; simp
      have hjoin : joinDNL (y :: ps) = y ++ '\n' :: '\n' :: joinDNL ps := by
        rw [hps]
        rfl
      rw [hjoin]
      rw [splitCore_part_append ('\n' :: joinDNL ps) hyne hinty, hmy]
      rw [splitCore, markerAt_newline_cons]
      simp only [Bool.false_eq_true, if_false, if_pos rfl]
      rw [ih hpsne (fun p hp => hall p (by simp [hp]))]
      rw [consHead_eq_prependHead]
      show ([[]] ++ prependHead (y ++ ['\n']) (prependHead ['\n'] ([] :: glue ps)))
        = [] :: glue (y :: ps)
      rw [show prependHead ['\n'] ([] :: glue ps) = ['\n'] :: glue ps from rfl]
      rw [show prependHead (y ++ ['\n']) (['\n'] :: glue ps)
        = ((y ++ ['\n']) ++ ['\n']) :: glue ps from rfl]
      have hglue : glue (y :: ps) = (y ++ '\n' :: '\n' :: []) :: glue ps := by
        rw [hps]
        rfl
      rw [hglue]
      simp

theorem glue_map_strip : ∀ (qs : List (List Char)),
    (∀ p ∈ qs, stripChars p = p ∧ p ≠ []) →
    ((glue qs).map stripChars).filter (· ≠ []) = qs := by
  intro qs
  induction qs with
  | nil => intro _; rfl
  | cons q qs ih =>
    intro hall
    obtain ⟨hqs, hqne⟩ := hall q (by simp)
    cases hqs' : qs with
    | nil =>
      subst hqs'
      show (([q].map stripChars).filter (· ≠ [])) = [q]
      rw [List.map_cons, List.map_nil, hqs]
      rw [List.filter_cons]
      rw [if_pos (by simpa using hqne)]
      rfl
    | cons q2 rest =>
      rw [← hqs']
      have hglue : glue (q :: qs) = (q ++ '\n' :: '\n' :: []) :: glue qs := by
        rw [hqs']
        rfl
      rw [hglue, List.map_cons]
      have hstrip : stripChars (q ++ '\n' :: '\n' :: []) = q :=
        strip_append_ws hqs hqne (by intro c hc; simp at hc; rcases hc with rfl | rfl <;> rfl)
      rw [hstrip, List.filter_cons, if_pos (by simpa using hqne)]
      rw [ih (fun p hp => hall p (by simp [hp]))]

theorem splitParts_join_eq : ∀ (qs : List (List Char)),
    (∀ p ∈ qs, stripChars p = p ∧ p ≠ [] ∧
      (∀ t, t <:+ p → t ≠ p → markerAt t = false)) →
    (∀ p ∈ qs.tail, markerAt p = true) →
    splitParts (joinDNL qs) = qs := by
  intro qs hinv htail
  cases hqs : qs with
  | nil => rfl
  | cons q qs' =>
    subst hqs
    obtain ⟨hqst, hqne, hqint⟩ := hinv q (by simp)
    have hallstrip : ∀ p ∈ q :: qs', stripChars p = p ∧ p ≠ [] := by
      intro p hp
      obtain ⟨h1, h2, -⟩ := hinv p hp
      exact ⟨h1, h2⟩
    cases hqs' : qs' with
    | nil =>
      subst hqs'
      show splitParts (joinDNL [q]) = [q]
      rw [show joinDNL [q] = q from rfl]
      unfold splitParts
      rw [splitCore_no_internal hqne hqint]
      by_cases hm : markerAt q = true
      · rw [if_pos hm]
        show (([[], q].map stripChars).filter (· ≠ [])) = [q]
        rw [List.map_cons, List.map_cons, List.map_nil]
        rw [show stripChars [] = [] from rfl, hqst]
        rw [List.filter_cons, if_neg (by simp)]
        rw [List.filter_cons, if_pos (by simpa using hqne)]
        rfl
      · rw [if_neg hm]
        show (([q].map stripChars).filter (· ≠ [])) = [q]
        rw [List.map_cons, List.map_nil, hqst]
        rw [List.filter_cons, if_pos (by simpa using hqne)]
        rfl
    | cons q2 rest =>
      subst hqs'
      have htailM : ∀ p ∈ q2 :: rest, markerAt p = true ∧
          (∀ t, t <:+ p → t ≠ p → markerAt t = false) := by
        intro p hp
        exact ⟨htail p (by simpa using hp), (hinv p (by simp [hp])).2.2⟩
      have hjoin : joinDNL (q :: q2 :: rest)
          = q ++ '\n' :: '\n' :: joinDNL (q2 :: rest) := rfl
      unfold splitParts
      rw [hjoin]
      rw [splitCore_part_append ('\n' :: joinDNL (q2 :: rest)) hqne hqint]
      rw [splitCore, markerAt_newline_cons]
      simp only [Bool.false_eq_true, if_false]
      rw [splitCore_joinDNL_allM (q2 :: rest) (by simp) htailM]
      rw [consHead_eq_prependHead, prependHead_prependHead]
      rw [show prependHead (q ++ ['\n'] ++ ['\n']) ([] :: glue (q2 :: rest))
        = (q ++ ['\n'] ++ ['\n']) :: glue (q2 :: rest) by simp [prependHead]]
      have hgl : (q ++ ['\n'] ++ ['\n']) :: glue (q2 :: rest)
          = glue (q :: q2 :: rest) := by
        show _ = (q ++ '\n' :: '\n' :: []) :: glue (q2 :: rest)
        simp
      by_cases hm : markerAt q = true
      · rw [if_pos hm]
        rw [show ([[]] ++ (q ++ ['\n'] ++ ['\n']) :: glue (q2 :: rest))
          = [] :: (q ++ ['\n'] ++ ['\n']) :: glue (q2 :: rest) from rfl]
        rw [List.map_cons]
        rw [show stripChars [] = [] from rfl]
        rw [List.filter_cons, if_neg (by simp)]
        rw [hgl]
        exact glue_map_strip _ hallstrip
      · rw [if_neg hm]
        rw [List.nil_append]
        rw [hgl]
        exact glue_map_strip _ hallstrip

theorem splitParts_inv (l : List Char) :
    (∀ p ∈ splitParts l, stripChars p = p ∧ p ≠ [] ∧
      (∀ t, t <:+ p → t ≠ p → markerAt t = false)) ∧
    (∀ p ∈ (splitParts l).tail, markerAt p = true) := by
  obtain ⟨p0, ps, hsc, hp0, hps⟩ := splitCore_struct l
  have hform : splitParts l
      = (stripChars p0 :: ps.map stripChars).filter (· ≠ []) := by
    unfold splitParts
    rw [hsc, List.map_cons]
  have hpsprops : ∀ a ∈ ps.map stripChars, stripChars a = a ∧ a ≠ [] ∧
      markerAt a = true ∧ (∀ t, t <:+ a → t ≠ a → markerAt t = false) := by
    intro a ha
    obtain ⟨p, hp, rfl⟩ := List.mem_map.mp ha
    obtain ⟨hM, hI⟩ := hps p hp
    obtain ⟨h1, h2, h3, h4⟩ := strip_marker_part hM hI
    exact ⟨stripChars_idem p, h2, h1, h4⟩
  have hfilter : (ps.map stripChars).filter (· ≠ []) = ps.map stripChars := by
    rw [List.filter_eq_self]
    intro a ha
    simpa using (hpsprops a ha).2.1
  constructor
  · intro p hp
    rw [hform, List.filter_cons] at hp
    by_cases h0 : stripChars p0 = []
    · rw [if_neg (by simp [h0]), hfilter] at hp
      obtain ⟨h1, h2, -, h4⟩ := hpsprops p hp
      exact ⟨h1, h2, h4⟩
    · rw [if_pos (by simpa using h0), hfilter] at hp
      rcases List.mem_cons.mp hp with rfl | hp
      · refine ⟨stripChars_idem p0, h0, ?_⟩
        intro t ht _
        exact markerFree_strip hp0 t ht
      · obtain ⟨h1, h2, -, h4⟩ := hpsprops p hp
        exact ⟨h1, h2, h4⟩
  · intro p hp
    rw [hform, List.filter_cons] at hp
    by_cases h0 : stripChars p0 = []
    · rw [if_neg (by simp [h0]), hfilter] at hp
      have hp' := List.mem_of_mem_tail hp
      exact (hpsprops p hp').2.2.1
    · rw [if_pos (by simpa using h0), hfilter] at hp
      simp only [List.tail_cons] at hp
      exact (hpsprops p hp).2.2.1

theorem splitParts_stable (l : List Char) :
    splitParts (joinDNL (splitParts l)) = splitParts l := by
  obtain ⟨hinv, htail⟩ := splitParts_inv l
  exact splitParts_join_eq _ hinv htail

/-- C2 counterexample: the reply `"ENTRY X"` is a single non-empty line that
does **not** start with an `ENTRY \d+:` marker (`markerAt` is false), so by
the claim it should be classified Refusal with no diagnostic files; the code
tests only `lstrip().upper().startswith("ENTRY")`, classifies it as a
**Mismatch**, and writes the two diagnostic files. -/
theorem C2_counterexample :
    (nonEmptyLines "ENTRY X".data).length = 1 ∧
    markerAt "ENTRY X".data = false ∧
    attempt_block_translation (fun _ => .val (some "ENTRY X")) fsOk
        [⟨1, "", "", "hi"⟩, ⟨2, "", "", "ho"⟩] "en" "nl" "" "" "" none "." =
      .ok (⟨false, none, none,
        some ("subtitles_1-2_input_en.txt", "subtitles_1-2_output_nl.txt")⟩,
        ["subtitles_1-2_input_en.txt", "subtitles_1-2_output_nl.txt"]) :=
  ⟨rfl, rfl, rfl⟩

/-- C2 (amended): for a non-empty unit list and non-empty reply, the chunk
attempt returns Success iff the number of `ENTRY \d+:`-keyed segments of the
reply equals the number of units (labels stripped from each segment);
otherwise, if the reply is exactly one non-empty line that — after
left-stripping and upper-casing — does not start with the word `ENTRY`, it
is a Refusal carrying that line (stripped) and no diagnostic files are
written; in all remaining cases it is a Mismatch with the two diagnostic
dumps written. -/
theorem C2_attempt_classification (gen : Prompt → GenResult)
    (fs : String → String → Except String Unit)
    (entries : List SRTEntry) (src_lang tgt_lang summary prev next : String)
    (movie_folder : Option String) (cwd : String) (resp : String)
    (hgen : gen (.translation src_lang tgt_lang entries summary prev next)
      = .val (some resp))
    (hne : resp.data ≠ [])
    (hfs : ∀ path content, fs path content = .ok ()) :
    ((splitParts resp.data).length = entries.length →
      attempt_block_translation gen fs entries src_lang tgt_lang summary prev
          next movie_folder cwd =
        .ok (⟨true,
          some ⟨joinDNL ((splitParts resp.data).map stripEntryLabelsChars)⟩,
          none, none⟩, [])) ∧
    ((splitParts resp.data).length ≠ entries.length →
      (∀ l, nonEmptyLines resp.data = [l] → startsWithENTRYUpper l = false →
        attempt_block_translation gen fs entries src_lang tgt_lang summary prev
            next movie_folder cwd =
          .ok (⟨false, none, some ⟨stripChars l⟩, none⟩, [])) ∧
      (∀ e0 rest, entries = e0 :: rest →
        (match nonEmptyLines resp.data with
          | [l] => startsWithENTRYUpper l = true
          | _ => True) →
        attempt_block_translation gen fs entries src_lang tgt_lang summary prev
            next movie_folder cwd =
          .ok (⟨false, none, none,
            some ("subtitles_" ++ toString e0.idx ++ "-"
                ++ toString (((e0 :: rest)).getLast (by simp)).idx
                ++ "_input_en.txt",
              "subtitles_" ++ toString e0.idx ++ "-"
                ++ toString (((e0 :: rest)).getLast (by simp)).idx
                ++ "_output_nl.txt")⟩,
            ["subtitles_" ++ toString e0.idx ++ "-"
                ++ toString (((e0 :: rest)).getLast (by simp)).idx
                ++ "_input_en.txt",
              "subtitles_" ++ toString e0.idx ++ "-"
                ++ toString (((e0 :: rest)).getLast (by simp)).idx
                ++ "_output_nl.txt"]))) := by
  have hfalsy : respFalsy (some resp) = false := by
    simp [respFalsy, hne]
  have hval : validate_block_count entries (joinDNL (splitParts resp.data))
      = decide ((splitParts resp.data).length = entries.length) := by
    unfold validate_block_count
    rw [splitParts_stable]
  constructor
  · intro hcount
    unfold attempt_block_translation
    rw [hgen]
    dsimp only
    rw [hfalsy]
    simp only [Bool.false_eq_true, if_false]
    rw [show ((some resp).getD "") = resp from rfl]
    rw [show (((splitCore resp.data).map stripChars).filter (· ≠ []))
      = splitParts resp.data from rfl]
    rw [hval, if_pos (by simpa using hcount)]
  · intro hcount
    constructor
    · intro l hlines hsw
      unfold attempt_block_translation
      rw [hgen]
      dsimp only
      rw [hfalsy]
      simp only [Bool.false_eq_true, if_false]
      rw [show ((some resp).getD "") = resp from rfl]
      rw [show (((splitCore resp.data).map stripChars).filter (· ≠ []))
        = splitParts resp.data from rfl]
      rw [hval, if_neg (by simpa using hcount)]
      rw [hlines]
      dsimp only
      rw [if_pos hsw]
    · intro e0 rest hent hmatch
      subst hent
      unfold attempt_block_translation
      rw [hgen]
      dsimp only
      rw [hfalsy]
      simp only [Bool.false_eq_true, if_false]
      rw [show ((some resp).getD "") = resp from rfl]
      rw [show (((splitCore resp.data).map stripChars).filter (· ≠ []))
        = splitParts resp.data from rfl]
      rw [hval, if_neg (by simpa using hcount)]
      have hmis : attempt_block_translation.attemptMismatch fs (e0 :: rest)
          (splitParts resp.data) movie_folder cwd =
          .ok (⟨false, none, none,
            some ("subtitles_" ++ toString e0.idx ++ "-"
                ++ toString (((e0 :: rest)).getLast (by simp)).idx
                ++ "_input_en.txt",
              "subtitles_" ++ toString e0.idx ++ "-"
                ++ toString (((e0 :: rest)).getLast (by simp)).idx
                ++ "_output_nl.txt")⟩,
            ["subtitles_" ++ toString e0.idx ++ "-"
                ++ toString (((e0 :: rest)).getLast (by simp)).idx
                ++ "_input_en.txt",
              "subtitles_" ++ toString e0.idx ++ "-"
                ++ toString (((e0 :: rest)).getLast (by simp)).idx
                ++ "_output_nl.txt"]) := by
        unfold attempt_block_translation.attemptMismatch
        dsimp only
        rw [hfs, hfs]
        rfl
      rcases hnel : nonEmptyLines resp.data with _ | ⟨l, _ | ⟨l2, ls⟩⟩
      · exact hmis
      · rw [hnel] at hmatch
        have hmatch2 : startsWithENTRYUpper l = true := hmatch
        dsimp only
        rw [if_neg (by simp [hmatch2])]
        exact hmis
      · exact hmis

set_option maxRecDepth 20000 in
/-- Closed instance of `C2_attempt_classification`: a one-unit chunk whose
reply carries exactly one `ENTRY 1:` segment succeeds with the label
stripped. -/
theorem C2_attempt_classification_witness :
    attempt_block_translation (fun _ => .val (some "ENTRY 1: hola")) fsOk
        [⟨1, "", "", "hi"⟩] "en" "nl" "" "" "" none "." =
      .ok (⟨true, some "hola", none, none⟩, []) := by
  have h := (C2_attempt_classification (fun _ => .val (some "ENTRY 1: hola"))
    fsOk [⟨1, "", "", "hi"⟩] "en" "nl" "" "" "" none "." "ENTRY 1: hola"
    rfl (by decide) (fun _ _ => rfl)).1 (by decide)
  rw [h]
  rfl
